import Mathlib

/-!
# merge_compares: a galloping merge sort with instrumented comparisons

A shallow embedding of `src/merge_compares.cpp` and a verification of its
search strategies, its merge step and its recursive driver.

Conventions of the embedding.

* An `Item` is its key.  `Item::value_type` is `uint32_t`; keys are only ever
  compared and used as indices, never computed with, so they are modelled as
  `Nat` (every 32-bit key is one).
* The static members of `Item` (the two switches, `counts`, `compare_pairs`)
  form the record `Rec`, threaded explicitly through every function.  `Rec`
  carries one ghost field, `history`, the log of all `operator<` calls; the
  program never reads it.  "Number of comparisons performed" is the growth of
  this log.
* An iterator range `[first, last)` is the list of the elements it spans and an
  iterator returned into the range is its offset from `first`.
* `size_t` arithmetic is modelled in `Nat`: all indices are bounded by the
  length of a `std::vector<Item>`, far below `2^63`, so nothing wraps.
* `std::terminate`, a failing `assert` and a loop that does not come to an end
  are the three values of `Fault`.
* Two methods are embedded a second time with the compile-time constant
  `check_dups` as a parameter (`Item.lt_with`, `Item.check_no_dups_with`), and
  `ExpSearch` a second time with every access checked (`ExpSearch_checked`);
  each is proved equal to the plain embedding.
* `mergesort.Calls` is the relation between a call of `mergesort` and the
  recursive calls in its body.
-/

namespace MergeCompares

/-- The class `Item`: a key. -/
structure Item where
  key : Nat
  deriving DecidableEq, Repr, Inhabited

/-- The static state of class `Item`, plus the ghost log `history` of the
operand keys `(key, o.key)` of every call of `operator<`. -/
structure Rec where
  count_compares : Bool
  counts : List Nat
  record_compares : Bool
  compare_pairs : List (Nat × Nat)
  history : List (Nat × Nat)
  deriving DecidableEq, Repr

/-- Abnormal ends of a run. -/
inductive Fault where
  | terminated
  | assertion
  | fuel
  deriving DecidableEq, Repr

/-- The constant `Item::check_dups` (line 13). -/
def Item.check_dups : Bool := false

/-- The statement `counts[k]++`.  An index outside the vector is undefined
behaviour in the source; the model leaves the vector as it is there. -/
def incr (counts : List Nat) (k : Nat) : List Nat :=
  counts.set k (counts.getD k 0 + 1)

/-- The method `Item::operator<` (lines 24-36). -/
def Item.lt (a o : Item) (s : Rec) : Bool × Rec :=
  let s1 : Rec :=
    if s.count_compares then { s with counts := incr (incr s.counts a.key) o.key } else s
  let s2 : Rec :=
    if Item.check_dups && s1.record_compares then
      { s1 with compare_pairs := s1.compare_pairs ++ [(min a.key o.key, max a.key o.key)] }
    else s1
  (decide (a.key < o.key), { s2 with history := s2.history ++ [(a.key, o.key)] })

/-- The order `std::sort` uses on `std::pair`: lexicographic. -/
def pair_le (p q : Nat × Nat) : Bool :=
  decide (p.1 < q.1) || (decide (p.1 = q.1) && decide (p.2 ≤ q.2))

/-- The library function `std::unique` on a vector: of every run of equal
neighbours the first is kept. -/
def std_unique : List (Nat × Nat) → List (Nat × Nat)
  | [] => []
  | [a] => [a]
  | a :: b :: t => if a = b then std_unique (b :: t) else a :: std_unique (b :: t)

/-- The method `Item::check_no_dups` (lines 38-50).  `it != temp.end()` holds
exactly when `std::unique` removed something. -/
def Item.check_no_dups (s : Rec) : Except Fault Rec :=
  if !Item.check_dups || !s.record_compares then .ok s
  else
    let temp := s.compare_pairs.mergeSort pair_le
    if (std_unique temp).length ≠ temp.length then .error Fault.terminated
    else .ok { s with compare_pairs := [] }

/-- The functor `LinSearch` (lines 66-70): `while (begin != end && *begin < x) begin++`. -/
def LinSearch : List Item → Item → Rec → Nat × Rec
  | [], _, s => (0, s)
  | y :: ys, x, s =>
    let c := Item.lt y x s
    if c.1 then
      let q := LinSearch ys x c.2
      (q.1 + 1, q.2)
    else (0, c.2)

/-- The loop of the library function `std::lower_bound` (libstdc++):
`while (len > 0) { half = len >> 1; middle = first + half;
if (*middle < val) { first = middle + 1; len = len - half - 1; } else len = half; }`.
The first argument bounds the number of iterations. -/
def lower_bound.loop (r : List Item) (x : Item) : Nat → Nat → Nat → Rec → Nat × Rec
  | 0, first, _, s => (first, s)
  | fuel + 1, first, len, s =>
    if 0 < len then
      let half := len / 2
      let middle := first + half
      let c := Item.lt (r.getD middle default) x s
      if c.1 then lower_bound.loop r x fuel (middle + 1) (len - half - 1) c.2
      else lower_bound.loop r x fuel first half c.2
    else (first, s)

/-- The library function `std::lower_bound(begin + first, begin + last, x)`, as
an index into `r`.  `len` shrinks in every iteration, so `last - first`
iterations are enough. -/
def lower_bound (r : List Item) (first last : Nat) (x : Item) (s : Rec) : Nat × Rec :=
  lower_bound.loop r x (last - first) first (last - first) s

/-- The doubling loop of `ExpSearch` (lines 82-86); the result is `(i, last_i)`.
The first argument bounds the number of iterations. -/
def ExpSearch.loop (r : List Item) (x : Item) : Nat → Nat → Nat → Nat → Rec → (Nat × Nat) × Rec
  | 0, i, last_i, _, s => ((i, last_i), s)
  | fuel + 1, i, last_i, step, s =>
    if i < r.length then
      let c := Item.lt (r.getD i default) x s
      if c.1 then ExpSearch.loop r x fuel (i + step) i (step * 2) c.2
      else ((i, last_i), c.2)
    else ((i, last_i), s)

/-- The functor `ExpSearch` (lines 75-102).  The loop advances `i` by at least
one per iteration, so `size` iterations are enough. -/
def ExpSearch (r : List Item) (x : Item) (s : Rec) : Nat × Rec :=
  let size := r.length
  let w := ExpSearch.loop r x size 0 0 1 s
  let i := w.1.1
  let last_i := w.1.2
  if last_i = i then (0, w.2)
  else if size ≤ i then
    if last_i = size - 1 then (size, w.2)
    else
      let c := Item.lt (r.getD (size - 1) default) x w.2
      if c.1 then (size, c.2)
      else lower_bound r (last_i + 1) (size - 1) x c.2
  else lower_bound r (last_i + 1) i x w.2

/-- The type of a search strategy `Func`: range, probe, state to offset, state. -/
abbrev Search := List Item → Item → Rec → Nat × Rec

/-- The loop of `merge` (lines 132-155).  `xs` is the range `[xi, middle)`,
`ys` the range `[yi, end)`; `xi != middle` is `xs ≠ []`, `yi != end` is
`ys ≠ []`, and moving a cursor forward by `k` drops `k` elements.  The first
argument bounds the number of iterations. -/
def merge.loop (f : Search) :
    Nat → List Item → List Item → Bool → List Item → Rec → Except Fault (List Item × Rec)
  | _, [], _, _, result, s => .ok (result, s)
  | 0, _ :: _, _, _, _, _ => .error Fault.fuel
  | fuel + 1, x :: xt, ys, first, result, s =>
    let d := if first then 0 else 1
    let st : List Item × List Item × Rec :=
      match ys with
      | [] => (ys, result, s)
      | _ :: _ =>
        let q := f (ys.drop d) x s
        (ys.drop (d + q.1), result ++ ys.take (d + q.1), q.2)
    match st with
    | (y :: yt, result1, s1) =>
      match xt with
      | [] => merge.loop f fuel [] (y :: yt) false (result1 ++ [x]) s1
      | _ :: _ =>
        let q := f xt y s1
        merge.loop f fuel (xt.drop q.1) (y :: yt) false (result1 ++ x :: xt.take q.1) q.2
    | ([], result1, s1) => merge.loop f fuel [] [] false (result1 ++ x :: xt) s1

/-- The function `merge` (lines 107-164) on the range `r`.  The branch guarded by
`false && size == 2` is dead.  Every iteration of the loop moves `xi` forward,
so `size` iterations are enough.  The final `std::copy` overwrites the first
`result.size()` elements of the range. -/
def merge (f : Search) (r : List Item) (s : Rec) : Except Fault (List Item × Rec) :=
  let size := r.length
  let middle := size / 2
  let s0 : Rec := { s with record_compares := true, compare_pairs := [] }
  match merge.loop f size (r.take middle) (r.drop middle) true [] s0 with
  | .error e => .error e
  | .ok (result, s1) =>
    match Item.check_no_dups s1 with
    | .error e => .error e
    | .ok s2 => .ok (result ++ r.drop result.length, { s2 with record_compares := false })

/-- The function `mergesort` (lines 175-188) on the range `r`.  The first
argument bounds the depth of the recursion. -/
def mergesort (f : Search) : Nat → List Item → Rec → Except Fault (List Item × Rec)
  | 0, _, _ => .error Fault.fuel
  | fuel + 1, r, s =>
    let size := r.length
    if size = 1 then .ok (r, s)
    else if size % 2 ≠ 0 then .error Fault.assertion
    else
      let middle := size / 2
      match mergesort f fuel (r.take middle) s with
      | .error e => .error e
      | .ok (l, s1) =>
        match mergesort f fuel (r.drop middle) s1 with
        | .error e => .error e
        | .ok (u, s2) => merge f (l ++ u) s2

/-- A fresh recorder for `n` keys with counting switched on, as `benchmark`
sets it up (lines 195-202). -/
def Rec.fresh (n : Nat) : Rec :=
  { count_compares := true, counts := List.replicate n 0, record_compares := false,
    compare_pairs := [], history := [] }

/-- A list of keys as a range of items. -/
def items (ks : List Nat) : List Item := ks.map Item.mk

/-- The library function `std::is_sorted` (libstdc++, through
`std::is_sorted_until`): `for (++next; next != last; first = next, ++next)
if (*next < *first) return next;`, and the range is sorted when the end is
reached. -/
def is_sorted : List Item → Rec → Bool × Rec
  | [], s => (true, s)
  | [_], s => (true, s)
  | a :: b :: t, s =>
    let c := Item.lt b a s
    if c.1 then (false, c.2) else is_sorted (b :: t) c.2

/-- The function `check_sorted` (lines 166-173). -/
def check_sorted (r : List Item) (s : Rec) : Bool × Rec :=
  let s0 : Rec := { s with count_compares := false }
  let q := is_sorted r s0
  (q.1, { q.2 with count_compares := true })

/-- A call of `mergesort`: the bound on the depth still allowed, the range, and
the recorder on entry. -/
abbrev mergesort.Call := Nat × List Item × Rec

/-- The recursive calls in the body of `mergesort` (lines 184-185).  A call on a
range whose length is neither 1 nor odd calls itself on `[begin, middle)`, and,
once that call has returned normally, on `[middle, end)`. -/
inductive mergesort.Calls (f : Search) : mergesort.Call → mergesort.Call → Prop
  | left (fuel : Nat) (r : List Item) (s : Rec) (h1 : r.length ≠ 1) (h2 : r.length % 2 = 0) :
    mergesort.Calls f (fuel + 1, r, s) (fuel, r.take (r.length / 2), s)
  | right (fuel : Nat) (r : List Item) (s : Rec) (l : List Item) (s1 : Rec)
      (h1 : r.length ≠ 1) (h2 : r.length % 2 = 0)
      (h : mergesort f fuel (r.take (r.length / 2)) s = .ok (l, s1)) :
    mergesort.Calls f (fuel + 1, r, s) (fuel, r.drop (r.length / 2), s1)

/-- The method `Item::operator<` (lines 24-36) with the value of the constant
`check_dups` as a parameter: what the method does in a build where the
constant has the value `cd`. -/
def Item.lt_with (cd : Bool) (a o : Item) (s : Rec) : Bool × Rec :=
  let s1 : Rec :=
    if s.count_compares then { s with counts := incr (incr s.counts a.key) o.key } else s
  let s2 : Rec :=
    if cd && s1.record_compares then
      { s1 with compare_pairs := s1.compare_pairs ++ [(min a.key o.key, max a.key o.key)] }
    else s1
  (decide (a.key < o.key), { s2 with history := s2.history ++ [(a.key, o.key)] })

/-- The method `Item::check_no_dups` (lines 38-50) with the value of the
constant `check_dups` as a parameter. -/
def Item.check_no_dups_with (cd : Bool) (s : Rec) : Except Fault Rec :=
  if !cd || !s.record_compares then .ok s
  else
    let temp := s.compare_pairs.mergeSort pair_le
    if (std_unique temp).length ≠ temp.length then .error Fault.terminated
    else .ok { s with compare_pairs := [] }

/-- A recorder for `n` keys with pair recording switched on and the pairs `ps`
recorded, as inside a call of `merge`. -/
def Rec.recording (n : Nat) (ps : List (Nat × Nat)) : Rec :=
  { Rec.fresh n with record_compares := true, compare_pairs := ps }

/-- Step 1 of one iteration of the loop of `merge` (lines 133-138), entered with
the left cursor on `x`: the range `[yi, end)`, the scratch buffer and the
recorder after it. -/
def merge.step1 (f : Search) (x : Item) (ys : List Item) (first : Bool) (result : List Item)
    (s : Rec) : List Item × List Item × Rec :=
  match ys with
  | [] => (ys, result, s)
  | _ :: _ =>
    let d := if first then 0 else 1
    let q := f (ys.drop d) x s
    (ys.drop (d + q.1), result ++ ys.take (d + q.1), q.2)

/-- The rest of one iteration of the loop of `merge` (lines 140-152), entered
with the left run `x :: xt` and with what step 1 left: the range `[xi, middle)`,
the scratch buffer and the recorder after it. -/
def merge.step2 (f : Search) (x : Item) (xt ys1 result1 : List Item) (s1 : Rec) :
    List Item × List Item × Rec :=
  match ys1 with
  | y :: _ =>
    match xt with
    | [] => ([], result1 ++ [x], s1)
    | _ :: _ =>
      let q := f xt y s1
      (xt.drop q.1, result1 ++ x :: xt.take q.1, q.2)
  | [] => ([], result1 ++ x :: xt, s1)

/-- The loop of `std::lower_bound` with the read `*middle` checked: the result
is `none` when `middle` is not an index of the range. -/
def lower_bound.loop_checked (r : List Item) (x : Item) :
    Nat → Nat → Nat → Rec → Option (Nat × Rec)
  | 0, first, _, s => some (first, s)
  | fuel + 1, first, len, s =>
    if 0 < len then
      let half := len / 2
      let middle := first + half
      match r[middle]? with
      | none => none
      | some e =>
        let c := Item.lt e x s
        if c.1 then lower_bound.loop_checked r x fuel (middle + 1) (len - half - 1) c.2
        else lower_bound.loop_checked r x fuel first half c.2
    else some (first, s)

/-- The call `std::lower_bound(begin + first, begin + last, x)` checked: the
result is `none` unless `first ≤ last` and the sub-range lies inside the range,
and when an element outside the range is read. -/
def lower_bound_checked (r : List Item) (first last : Nat) (x : Item) (s : Rec) :
    Option (Nat × Rec) :=
  if first ≤ last ∧ last ≤ r.length then
    lower_bound.loop_checked r x (last - first) first (last - first) s
  else none

/-- The doubling loop of `ExpSearch` with the read `*std::next(begin, i)`
checked. -/
def ExpSearch.loop_checked (r : List Item) (x : Item) :
    Nat → Nat → Nat → Nat → Rec → Option ((Nat × Nat) × Rec)
  | 0, i, last_i, _, s => some ((i, last_i), s)
  | fuel + 1, i, last_i, step, s =>
    if i < r.length then
      match r[i]? with
      | none => none
      | some e =>
        let c := Item.lt e x s
        if c.1 then ExpSearch.loop_checked r x fuel (i + step) i (step * 2) c.2
        else some ((i, last_i), c.2)
    else some ((i, last_i), s)

/-- The functor `ExpSearch` (lines 75-102) with every access checked: the result
is `none` when an element outside the range is read, when `size - 1` is
evaluated for `size = 0` (where it wraps), or when `std::lower_bound` is handed
a sub-range that is reversed or not inside the range. -/
def ExpSearch_checked (r : List Item) (x : Item) (s : Rec) : Option (Nat × Rec) :=
  let size := r.length
  match ExpSearch.loop_checked r x size 0 0 1 s with
  | none => none
  | some w =>
    let i := w.1.1
    let last_i := w.1.2
    if last_i = i then some (0, w.2)
    else if size ≤ i then
      if size = 0 then none
      else if last_i = size - 1 then some (size, w.2)
      else
        match r[size - 1]? with
        | none => none
        | some e =>
          let c := Item.lt e x w.2
          if c.1 then some (size, c.2)
          else lower_bound_checked r (last_i + 1) (size - 1) x c.2
    else lower_bound_checked r (last_i + 1) i x w.2

/-! ## Specification vocabulary -/

/-- A range is non-decreasing: no element is smaller than an earlier one. -/
def NonDecreasing (r : List Item) : Prop := r.Pairwise (fun a b => a.key ≤ b.key)

instance (r : List Item) : Decidable (NonDecreasing r) := by
  unfold NonDecreasing; infer_instance

/-- The position `p` is the lower bound of the probe `x` in `r`: every element
before `p` is smaller than `x`, no element from `p` on is. -/
def IsLowerBound (r : List Item) (x : Item) (p : Nat) : Prop :=
  p ≤ r.length ∧ (∀ i e, i < p → r[i]? = some e → e.key < x.key) ∧
    (∀ i e, p ≤ i → r[i]? = some e → ¬ e.key < x.key)

/-- The number of calls of `operator<` between the states `s` and `t`. -/
def comparisons (s t : Rec) : Nat := t.history.length - s.history.length

/-- The calls of `operator<` between the states `s` and `t`, oldest first. -/
def newCalls (s t : Rec) : List (Nat × Nat) := t.history.drop s.history.length

/-- The pair `(min, max)` of the two operands of a comparison. -/
def normalize (p : Nat × Nat) : Nat × Nat := (min p.1 p.2, max p.1 p.2)

/-- What `counts` becomes when the comparisons `t` are counted. -/
def tally (c : List Nat) (t : List (Nat × Nat)) : List Nat :=
  t.foldl (fun c p => incr (incr c p.1) p.2) c

/-- The state `t` arises from `s` by the calls `tr` of `operator<` and, in
between, assignments to the recording switch and to `compare_pairs` only. -/
def Tracks (s t : Rec) (tr : List (Nat × Nat)) : Prop :=
  t.count_compares = s.count_compares ∧ t.history = s.history ++ tr ∧
    t.counts = if s.count_compares then tally s.counts tr else s.counts

/-- The operands of the comparison `r[j] < x`. -/
def probe (r : List Item) (x : Item) (j : Nat) : Nat × Nat := ((r.getD j default).key, x.key)

/-- What `merge` relies on in a search strategy: the returned position is
inside the range, it is the lower bound when the range is non-decreasing, and
the strategy changes the recorder only by comparing the probe with elements at
pairwise different positions of the range. -/
structure Search.Sound (f : Search) : Prop where
  le : ∀ r x s, (f r x s).1 ≤ r.length
  lower : ∀ r x s, NonDecreasing r → IsLowerBound r x (f r x s).1
  probes : ∀ r x s, ∃ idxs : List Nat, idxs.Nodup ∧ (∀ t ∈ idxs, t < r.length) ∧
    Tracks s (f r x s).2 (idxs.map (probe r x))

/-- A run of order comparisons, one per pair of the list, in order. -/
def compareAll : List (Item × Item) → Rec → List Bool × Rec
  | [], s => ([], s)
  | p :: ps, s =>
    let c := Item.lt p.1 p.2 s
    let q := compareAll ps c.2
    (c.1 :: q.1, q.2)

/-! ## The comparison and the recorder -/

theorem Item.lt_fst (a o : Item) (s : Rec) : (Item.lt a o s).1 = decide (a.key < o.key) := rfl

theorem Item.lt_history (a o : Item) (s : Rec) :
    (Item.lt a o s).2.history = s.history ++ [(a.key, o.key)] := by
  unfold Item.lt
  by_cases h : s.count_compares <;> simp [h, Item.check_dups]

theorem Item.lt_count_compares (a o : Item) (s : Rec) :
    (Item.lt a o s).2.count_compares = s.count_compares := by
  unfold Item.lt
  by_cases h : s.count_compares <;> simp [h, Item.check_dups]

theorem Item.lt_record_compares (a o : Item) (s : Rec) :
    (Item.lt a o s).2.record_compares = s.record_compares := by
  unfold Item.lt
  by_cases h : s.count_compares <;> simp [h, Item.check_dups]

theorem Item.lt_compare_pairs (a o : Item) (s : Rec) :
    (Item.lt a o s).2.compare_pairs = s.compare_pairs := by
  unfold Item.lt
  by_cases h : s.count_compares <;> simp [h, Item.check_dups]

theorem Item.lt_counts (a o : Item) (s : Rec) :
    (Item.lt a o s).2.counts =
      if s.count_compares then incr (incr s.counts a.key) o.key else s.counts := by
  unfold Item.lt
  by_cases h : s.count_compares <;> simp [h, Item.check_dups]

theorem Tracks.refl (s : Rec) : Tracks s s [] := by
  simp [Tracks, tally]

theorem tally_append (c : List Nat) (t u : List (Nat × Nat)) :
    tally c (t ++ u) = tally (tally c t) u := by
  simp [tally, List.foldl_append]

theorem Tracks.trans {s t u : Rec} {a b : List (Nat × Nat)}
    (h1 : Tracks s t a) (h2 : Tracks t u b) : Tracks s u (a ++ b) := by
  obtain ⟨c1, e1, k1⟩ := h1
  obtain ⟨c2, e2, k2⟩ := h2
  refine ⟨c2.trans c1, by rw [e2, e1, List.append_assoc], ?_⟩
  rw [k2, c1, k1]
  by_cases h : s.count_compares <;> simp [h, tally_append]

theorem Item.lt_tracks (a o : Item) (s : Rec) :
    Tracks s (Item.lt a o s).2 [(a.key, o.key)] := by
  refine ⟨Item.lt_count_compares a o s, Item.lt_history a o s, ?_⟩
  rw [Item.lt_counts]; simp [tally]

theorem Tracks.comparisons {s t : Rec} {tr : List (Nat × Nat)} (h : Tracks s t tr) :
    comparisons s t = tr.length := by
  simp [MergeCompares.comparisons, h.2.1]

theorem Tracks.newCalls {s t : Rec} {tr : List (Nat × Nat)} (h : Tracks s t tr) :
    newCalls s t = tr := by
  simp [MergeCompares.newCalls, h.2.1]

theorem incr_length (c : List Nat) (k : Nat) : (incr c k).length = c.length := by
  simp [incr]

theorem incr_getD (c : List Nat) (k j : Nat) :
    (incr c k).getD j 0 = c.getD j 0 + (if j = k ∧ k < c.length then 1 else 0) := by
  unfold incr
  by_cases hjk : j = k
  · subst hjk
    by_cases hl : j < c.length
    · simp [List.getD_eq_getElem?_getD, List.getElem?_set, hl]
    · have : c.length ≤ j := Nat.le_of_not_lt hl
      simp [List.getD_eq_getElem?_getD, List.getElem?_set, hl, List.getElem?_eq_none this]
  · have : ¬ k = j := fun h => hjk h.symm
    simp [List.getD_eq_getElem?_getD, List.getElem?_set, hjk, this]

theorem sum_set (c : List Nat) (k v : Nat) (h : k < c.length) :
    (c.set k v).sum + c.getD k 0 = c.sum + v := by
  induction c generalizing k with
  | nil => simp at h
  | cons a c ih =>
    cases k with
    | zero => simp; omega
    | succ k =>
      have := ih k (by simpa using h)
      simp at this ⊢
      omega

theorem incr_sum (c : List Nat) (k : Nat) :
    (incr c k).sum = c.sum + (if k < c.length then 1 else 0) := by
  unfold incr
  by_cases h : k < c.length
  · have := sum_set c k (c.getD k 0 + 1) h
    rw [if_pos h]; omega
  · have : c.length ≤ k := Nat.le_of_not_lt h
    simp [h, List.set_eq_of_length_le this]

theorem tally_length (c : List Nat) (t : List (Nat × Nat)) : (tally c t).length = c.length := by
  induction t generalizing c with
  | nil => rfl
  | cons p t ih => simp [tally] at ih ⊢; rw [ih]; simp [incr_length]

theorem tally_sum_le (c : List Nat) (t : List (Nat × Nat)) :
    (tally c t).sum ≤ c.sum + 2 * t.length := by
  induction t generalizing c with
  | nil => simp [tally]
  | cons p t ih =>
    have h := ih (incr (incr c p.1) p.2)
    have h1 := incr_sum c p.1
    have h2 := incr_sum (incr c p.1) p.2
    simp only [tally, List.foldl_cons, List.length_cons] at h ⊢
    split at h1 <;> split at h2 <;> omega

theorem tally_sum (c : List Nat) (t : List (Nat × Nat))
    (h : ∀ p ∈ t, p.1 < c.length ∧ p.2 < c.length) :
    (tally c t).sum = c.sum + 2 * t.length := by
  induction t generalizing c with
  | nil => simp [tally]
  | cons p t ih =>
    have hp := h p (List.mem_cons_self _ _)
    have h0 := ih (incr (incr c p.1) p.2) (by
      intro q hq
      simpa [incr_length] using h q (List.mem_cons_of_mem _ hq))
    have h1 := incr_sum c p.1
    have h2 := incr_sum (incr c p.1) p.2
    rw [incr_length] at h2
    simp only [tally, List.foldl_cons, List.length_cons] at h0 ⊢
    rw [if_pos hp.1] at h1
    rw [if_pos hp.2] at h2
    omega

theorem tally_getD (c : List Nat) (t : List (Nat × Nat)) (k : Nat)
    (h : ∀ p ∈ t, p.1 < c.length ∧ p.2 < c.length) :
    (tally c t).getD k 0 = c.getD k 0 + (t.map Prod.fst).count k + (t.map Prod.snd).count k := by
  induction t generalizing c with
  | nil => simp [tally]
  | cons p t ih =>
    have hp := h p (List.mem_cons_self _ _)
    have h0 := ih (incr (incr c p.1) p.2) (by
      intro q hq
      simpa [incr_length] using h q (List.mem_cons_of_mem _ hq))
    have h1 := incr_getD c p.1 k
    have h2 := incr_getD (incr c p.1) p.2 k
    rw [incr_length] at h2
    simp only [tally, List.foldl_cons] at h0 ⊢
    rw [h0, h2, h1]
    simp only [List.map_cons, List.count_cons, hp.1, hp.2, and_true, beq_iff_eq]
    have e1 : (p.1 = k) ↔ (k = p.1) := eq_comm
    have e2 : (p.2 = k) ↔ (k = p.2) := eq_comm
    simp only [e1, e2]
    omega

theorem compareAll_spec (ps : List (Item × Item)) (s : Rec) :
    (compareAll ps s).1 = ps.map (fun p => decide (p.1.key < p.2.key)) ∧
      Tracks s (compareAll ps s).2 (ps.map (fun p => (p.1.key, p.2.key))) := by
  induction ps generalizing s with
  | nil => exact ⟨rfl, Tracks.refl s⟩
  | cons p ps ih =>
    obtain ⟨h1, h2⟩ := ih (Item.lt p.1 p.2 s).2
    refine ⟨?_, ?_⟩
    · simp [compareAll, h1, Item.lt_fst]
    · have := (Item.lt_tracks p.1 p.2 s).trans h2
      simpa [compareAll] using this

/-! ## Ranges -/

theorem NonDecreasing.getD_le {r : List Item} (h : NonDecreasing r) {i j : Nat}
    (hij : i ≤ j) (hj : j < r.length) :
    (r.getD i default).key ≤ (r.getD j default).key := by
  rcases Nat.eq_or_lt_of_le hij with rfl | hlt
  · exact Nat.le_refl _
  · have hi : i < r.length := Nat.lt_trans hlt hj
    rw [List.getD_eq_getElem _ _ hi, List.getD_eq_getElem _ _ hj]
    exact (List.pairwise_iff_getElem.mp h) i j hi hj hlt

theorem getD_of_getElem? {r : List Item} {i : Nat} {e : Item} (h : r[i]? = some e) :
    r.getD i default = e := by
  simp [List.getD_eq_getElem?_getD, h]

theorem getElem?_lt_length {r : List Item} {i : Nat} {e : Item} (h : r[i]? = some e) :
    i < r.length := by
  obtain ⟨hi, _⟩ := List.getElem?_eq_some.mp h
  exact hi

theorem IsLowerBound.unique {r : List Item} {x : Item} {p q : Nat}
    (hp : IsLowerBound r x p) (hq : IsLowerBound r x q) : p = q := by
  obtain ⟨hpl, hp1, hp2⟩ := hp
  obtain ⟨hql, hq1, hq2⟩ := hq
  rcases Nat.lt_trichotomy p q with h | h | h
  · have hl : p < r.length := Nat.lt_of_lt_of_le h hql
    exact absurd (hq1 p r[p] h (List.getElem?_eq_getElem hl))
      (hp2 p r[p] (Nat.le_refl _) (List.getElem?_eq_getElem hl))
  · exact h
  · have hl : q < r.length := Nat.lt_of_lt_of_le h hpl
    exact absurd (hp1 q r[q] h (List.getElem?_eq_getElem hl))
      (hq2 q r[q] (Nat.le_refl _) (List.getElem?_eq_getElem hl))

theorem IsLowerBound.mem_take {r : List Item} {x : Item} {p : Nat} (h : IsLowerBound r x p)
    {e : Item} (he : e ∈ r.take p) : e.key < x.key := by
  obtain ⟨i, hi⟩ := List.mem_iff_getElem?.mp he
  have hlt : i < (r.take p).length := getElem?_lt_length hi
  have hip : i < p := by
    rw [List.length_take] at hlt; omega
  rw [List.getElem?_take_of_lt hip] at hi
  exact h.2.1 i e hip hi

theorem IsLowerBound.mem_drop {r : List Item} {x : Item} {p : Nat} (h : IsLowerBound r x p)
    {e : Item} (he : e ∈ r.drop p) : x.key ≤ e.key := by
  obtain ⟨i, hi⟩ := List.mem_iff_getElem?.mp he
  rw [List.getElem?_drop] at hi
  exact Nat.le_of_not_lt (h.2.2 (p + i) e (Nat.le_add_right _ _) hi)

/-! ## LinSearch -/

theorem LinSearch_cons (y : Item) (ys : List Item) (x : Item) (s : Rec) :
    LinSearch (y :: ys) x s =
      if y.key < x.key then
        ((LinSearch ys x (Item.lt y x s).2).1 + 1, (LinSearch ys x (Item.lt y x s).2).2)
      else (0, (Item.lt y x s).2) := by
  simp [LinSearch, Item.lt_fst]

theorem LinSearch_le (r : List Item) (x : Item) (s : Rec) :
    (LinSearch r x s).1 ≤ r.length := by
  induction r generalizing s with
  | nil => simp [LinSearch]
  | cons y ys ih =>
    rw [LinSearch_cons]
    split
    · simpa using ih _
    · simp

theorem LinSearch_before (r : List Item) (x : Item) (s : Rec) (i : Nat) (e : Item)
    (hi : i < (LinSearch r x s).1) (he : r[i]? = some e) : e.key < x.key := by
  induction r generalizing s i with
  | nil => simp [LinSearch] at hi
  | cons y ys ih =>
    rw [LinSearch_cons] at hi
    split at hi
    · rename_i hy
      cases i with
      | zero =>
        simp at he; subst he; exact hy
      | succ i =>
        simp at he hi
        exact ih _ i hi he
    · simp at hi

theorem LinSearch_at (r : List Item) (x : Item) (s : Rec) (e : Item)
    (he : r[(LinSearch r x s).1]? = some e) : ¬ e.key < x.key := by
  induction r generalizing s with
  | nil => simp at he
  | cons y ys ih =>
    rw [LinSearch_cons] at he
    split at he
    · simp at he
      exact ih _ he
    · rename_i hy
      simp at he; subst he; exact hy

theorem LinSearch_isLowerBound (r : List Item) (x : Item) (s : Rec) (h : NonDecreasing r) :
    IsLowerBound r x (LinSearch r x s).1 := by
  refine ⟨LinSearch_le r x s, fun i e hi he => LinSearch_before r x s i e hi he, ?_⟩
  intro i e hpi he hlt
  have hil : i < r.length := getElem?_lt_length he
  have hpl : (LinSearch r x s).1 < r.length := Nat.lt_of_le_of_lt hpi hil
  have h1 := LinSearch_at r x s _ (List.getElem?_eq_getElem hpl)
  have h2 := h.getD_le hpi hil
  rw [getD_of_getElem? he, List.getD_eq_getElem _ _ hpl] at h2
  omega

theorem LinSearch_tracks (r : List Item) (x : Item) (s : Rec) :
    Tracks s (LinSearch r x s).2
      ((r.take ((LinSearch r x s).1 + 1)).map (fun e => (e.key, x.key))) := by
  induction r generalizing s with
  | nil => simpa [LinSearch] using Tracks.refl s
  | cons y ys ih =>
    rw [LinSearch_cons]
    split
    · have := (Item.lt_tracks y x s).trans (ih (Item.lt y x s).2)
      simpa using this
    · simpa using Item.lt_tracks y x s

theorem LinSearch_comparisons (r : List Item) (x : Item) (s : Rec) :
    comparisons s (LinSearch r x s).2 = min ((LinSearch r x s).1 + 1) r.length := by
  rw [(LinSearch_tracks r x s).comparisons]
  simp

theorem IsLowerBound.countP {r : List Item} {x : Item} {p : Nat} (h : IsLowerBound r x p) :
    r.countP (fun e => decide (e.key < x.key)) = p := by
  have e1 : (r.take p).countP (fun e => decide (e.key < x.key)) = (r.take p).length := by
    rw [List.countP_eq_length]
    intro e he
    simpa using h.mem_take he
  have e2 : (r.drop p).countP (fun e => decide (e.key < x.key)) = 0 := by
    rw [List.countP_eq_zero]
    intro e he
    have := h.mem_drop he
    simp; omega
  have := List.countP_append (fun e => decide (e.key < x.key)) (r.take p) (r.drop p)
  rw [List.take_append_drop, e1, e2, List.length_take, Nat.min_eq_left h.1] at this
  simpa using this

theorem LinSearch_end_iff (r : List Item) (x : Item) (s : Rec) (h : NonDecreasing r) :
    IsLowerBound r x (LinSearch r x s).1 ∧
      ((LinSearch r x s).1 = r.length ↔ ∀ e ∈ r, e.key < x.key) := by
  have hlb := LinSearch_isLowerBound r x s h
  refine ⟨hlb, ?_, ?_⟩
  · intro heq e he
    have : e ∈ r.take (LinSearch r x s).1 := by rw [heq, List.take_length]; exact he
    exact hlb.mem_take this
  · intro hall
    rcases Nat.eq_or_lt_of_le hlb.1 with heq | hlt
    · exact heq
    · exact absurd (hall _ (List.getElem_mem hlt))
        (hlb.2.2 _ _ (Nat.le_refl _) (List.getElem?_eq_getElem hlt))

/-- C4: on a non-decreasing range `LinSearch` returns the lower bound of the
probe, that is the first index whose element is not smaller than the probe, or
the length of the range when every element is smaller. -/
theorem LinSearch_lower_bound (r : List Item) (x : Item) (s : Rec) (h : NonDecreasing r) :
    IsLowerBound r x (LinSearch r x s).1 ∧
      ((LinSearch r x s).1 = r.length ↔ ∀ e ∈ r, e.key < x.key) :=
  LinSearch_end_iff r x s h

theorem LinSearch_lower_bound_witness :
    NonDecreasing (items [1, 3, 3, 8]) ∧
      (IsLowerBound (items [1, 3, 3, 8]) ⟨3⟩ (LinSearch (items [1, 3, 3, 8]) ⟨3⟩ (Rec.fresh 9)).1 ∧
        ((LinSearch (items [1, 3, 3, 8]) ⟨3⟩ (Rec.fresh 9)).1 = (items [1, 3, 3, 8]).length ↔
          ∀ e ∈ items [1, 3, 3, 8], e.key < (Item.mk 3).key)) :=
  ⟨by decide, LinSearch_lower_bound (items [1, 3, 3, 8]) ⟨3⟩ (Rec.fresh 9) (by decide)⟩

/-- C9: on a non-decreasing range the number of order comparisons of `LinSearch`
is the number of elements smaller than the probe, plus one when some element
is not smaller than the probe (the failing comparison). -/
theorem LinSearch_comparison_count (r : List Item) (x : Item) (s : Rec) (h : NonDecreasing r) :
    comparisons s (LinSearch r x s).2 =
      r.countP (fun e => decide (e.key < x.key)) +
        (if ∃ e ∈ r, ¬ e.key < x.key then 1 else 0) := by
  have hlb := LinSearch_end_iff r x s h
  rw [LinSearch_comparisons, hlb.1.countP]
  by_cases hex : ∃ e ∈ r, ¬ e.key < x.key
  · rw [if_pos hex]
    have hne : (LinSearch r x s).1 ≠ r.length := by
      intro heq
      obtain ⟨e, he, hn⟩ := hex
      exact hn (hlb.2.mp heq e he)
    have := hlb.1.1
    omega
  · rw [if_neg hex]
    have : (LinSearch r x s).1 = r.length := by
      apply hlb.2.mpr
      intro e he
      by_contra hn
      exact hex ⟨e, he, hn⟩
    omega

theorem LinSearch_comparison_count_witness :
    NonDecreasing (items [1, 3, 3, 8]) ∧
      comparisons (Rec.fresh 9) (LinSearch (items [1, 3, 3, 8]) ⟨3⟩ (Rec.fresh 9)).2 =
        (items [1, 3, 3, 8]).countP (fun e => decide (e.key < (Item.mk 3).key)) +
          (if ∃ e ∈ items [1, 3, 3, 8], ¬ e.key < (Item.mk 3).key then 1 else 0) :=
  ⟨by decide, LinSearch_comparison_count (items [1, 3, 3, 8]) ⟨3⟩ (Rec.fresh 9) (by decide)⟩

/-- C7: from all-zero counts and with counting enabled, after any run of order
comparisons between items whose keys are valid indices of `counts`, `counts[k]`
is the number of times key `k` was an operand, and the sum of `counts` is twice
the number of comparisons; with counting disabled a comparison leaves `counts`
unchanged; every comparison returns whether `a.key < b.key`. -/
theorem operator_lt_counts (n : Nat) (ps : List (Item × Item)) (s : Rec)
    (hz : s.counts = List.replicate n 0) (hon : s.count_compares = true)
    (hk : ∀ p ∈ ps, p.1.key < n ∧ p.2.key < n) :
    (∀ k, k < n → (compareAll ps s).2.counts.getD k 0 =
        (ps.map (fun p => p.1.key)).count k + (ps.map (fun p => p.2.key)).count k) ∧
      comparisons s (compareAll ps s).2 = ps.length ∧
      (compareAll ps s).2.counts.sum = 2 * comparisons s (compareAll ps s).2 ∧
      (compareAll ps s).1 = ps.map (fun p => decide (p.1.key < p.2.key)) ∧
      (∀ (a b : Item) (t : Rec), t.count_compares = false →
        (Item.lt a b t).2.counts = t.counts ∧ (Item.lt a b t).1 = decide (a.key < b.key)) := by
  obtain ⟨hv, ht⟩ := compareAll_spec ps s
  have hin : ∀ q ∈ ps.map (fun p => (p.1.key, p.2.key)),
      q.1 < s.counts.length ∧ q.2 < s.counts.length := by
    intro q hq
    obtain ⟨p, hp, rfl⟩ := List.mem_map.mp hq
    simpa [hz] using hk p hp
  have hc : (compareAll ps s).2.counts = tally s.counts (ps.map (fun p => (p.1.key, p.2.key))) := by
    rw [ht.2.2, if_pos hon]
  have hcmp : comparisons s (compareAll ps s).2 = ps.length := by
    rw [ht.comparisons]; simp
  refine ⟨?_, hcmp, ?_, hv, ?_⟩
  · intro k _
    rw [hc, tally_getD _ _ _ hin]
    simp [hz, List.getD_eq_getElem?_getD, List.getElem?_replicate, Function.comp_def]
    split <;> rfl
  · rw [hcmp, hc, tally_sum _ _ hin]
    simp [hz]
  · intro a b t hoff
    refine ⟨?_, Item.lt_fst a b t⟩
    rw [Item.lt_counts]; simp [hoff]

theorem operator_lt_counts_witness :
    (Rec.fresh 4).counts = List.replicate 4 0 ∧ (Rec.fresh 4).count_compares = true ∧
      (∀ p ∈ [(Item.mk 2, Item.mk 3), (Item.mk 3, Item.mk 0)], p.1.key < 4 ∧ p.2.key < 4) ∧
      (compareAll [(Item.mk 2, Item.mk 3), (Item.mk 3, Item.mk 0)] (Rec.fresh 4)).2.counts.sum =
        2 * comparisons (Rec.fresh 4)
          (compareAll [(Item.mk 2, Item.mk 3), (Item.mk 3, Item.mk 0)] (Rec.fresh 4)).2 :=
  ⟨rfl, rfl, by decide,
    (operator_lt_counts 4 [(Item.mk 2, Item.mk 3), (Item.mk 3, Item.mk 0)] (Rec.fresh 4)
      rfl rfl (by decide)).2.2.1⟩

/-! ## std::lower_bound -/

theorem lower_bound.bisect_succ (r : List Item) (x : Item) (fuel first len : Nat) (s : Rec) :
    lower_bound.loop r x (fuel + 1) first len s =
      if 0 < len then
        if (r.getD (first + len / 2) default).key < x.key then
          lower_bound.loop r x fuel (first + len / 2 + 1) (len - len / 2 - 1)
            (Item.lt (r.getD (first + len / 2) default) x s).2
        else
          lower_bound.loop r x fuel first (len / 2)
            (Item.lt (r.getD (first + len / 2) default) x s).2
      else (first, s) := by
  simp only [lower_bound.loop, Item.lt_fst, decide_eq_true_eq]

theorem lower_bound.loop_bounds (r : List Item) (x : Item) (fuel first len : Nat) (s : Rec) :
    first ≤ (lower_bound.loop r x fuel first len s).1 ∧
      (lower_bound.loop r x fuel first len s).1 ≤ first + len := by
  induction fuel generalizing first len s with
  | zero => simp [lower_bound.loop]
  | succ fuel ih =>
    rw [lower_bound.bisect_succ]
    split
    · split
      · have := ih (first + len / 2 + 1) (len - len / 2 - 1)
          (Item.lt (r.getD (first + len / 2) default) x s).2
        omega
      · have := ih first (len / 2) (Item.lt (r.getD (first + len / 2) default) x s).2
        omega
    · simp

theorem lower_bound.loop_partition (r : List Item) (x : Item) (h : NonDecreasing r)
    (fuel first len : Nat) (s : Rec) (hf : len ≤ fuel) (hl : first + len ≤ r.length) :
    (∀ j, first ≤ j → j < (lower_bound.loop r x fuel first len s).1 →
        (r.getD j default).key < x.key) ∧
      (∀ j, (lower_bound.loop r x fuel first len s).1 ≤ j → j < first + len →
        ¬ (r.getD j default).key < x.key) := by
  induction fuel generalizing first len s with
  | zero =>
    have : len = 0 := by omega
    subst this
    simp only [lower_bound.loop]
    exact ⟨fun j h1 h2 => by omega, fun j h1 h2 => by omega⟩
  | succ fuel ih =>
    rw [lower_bound.bisect_succ]
    split
    · rename_i hpos
      split
      · rename_i hlt
        obtain ⟨h1, h2⟩ := ih (first + len / 2 + 1) (len - len / 2 - 1)
          (Item.lt (r.getD (first + len / 2) default) x s).2 (by omega) (by omega)
        refine ⟨?_, ?_⟩
        · intro j hj1 hj2
          by_cases hjm : j ≤ first + len / 2
          · have := h.getD_le hjm (by omega)
            omega
          · exact h1 j (by omega) hj2
        · intro j hj1 hj2
          exact h2 j hj1 (by omega)
      · rename_i hge
        obtain ⟨h1, h2⟩ := ih first (len / 2)
          (Item.lt (r.getD (first + len / 2) default) x s).2 (by omega) (by omega)
        refine ⟨h1, ?_⟩
        intro j hj1 hj2
        by_cases hjm : j < first + len / 2
        · exact h2 j hj1 hjm
        · have := h.getD_le (Nat.le_of_not_lt hjm) (by omega)
          omega
    · exact ⟨fun j h1 h2 => by omega, fun j h1 h2 => by omega⟩

theorem lower_bound.loop_tracks (r : List Item) (x : Item)
    (fuel first len : Nat) (s : Rec) (L : Nat) (hf : len ≤ fuel) (hL : len < 2 ^ L) :
    ∃ idxs : List Nat, idxs.Nodup ∧ (∀ j ∈ idxs, first ≤ j ∧ j < first + len) ∧
      idxs.length ≤ L ∧
      Tracks s (lower_bound.loop r x fuel first len s).2 (idxs.map (probe r x)) := by
  induction fuel generalizing first len s L with
  | zero =>
    exact ⟨[], List.nodup_nil, by simp, by simp, by simpa [lower_bound.loop] using Tracks.refl s⟩
  | succ fuel ih =>
    rw [lower_bound.bisect_succ]
    split
    · rename_i hpos
      obtain ⟨K, rfl⟩ : ∃ K, L = K + 1 := by
        cases L with
        | zero => simp at hL; omega
        | succ K => exact ⟨K, rfl⟩
      have hK : len / 2 < 2 ^ K := by
        rw [pow_succ] at hL; omega
      have ht0 := Item.lt_tracks (r.getD (first + len / 2) default) x s
      split
      · obtain ⟨idxs, hnd, hmem, hlen, htr⟩ := ih (first + len / 2 + 1) (len - len / 2 - 1)
          (Item.lt (r.getD (first + len / 2) default) x s).2 K (by omega) (by omega)
        refine ⟨(first + len / 2) :: idxs, ?_, ?_, by simpa using hlen, ?_⟩
        · refine List.nodup_cons.mpr ⟨fun hin => ?_, hnd⟩
          have := hmem _ hin; omega
        · intro j hj
          rcases List.mem_cons.mp hj with rfl | hj
          · omega
          · have := hmem j hj; omega
        · simpa [probe] using ht0.trans htr
      · obtain ⟨idxs, hnd, hmem, hlen, htr⟩ := ih first (len / 2)
          (Item.lt (r.getD (first + len / 2) default) x s).2 K (by omega) hK
        refine ⟨(first + len / 2) :: idxs, ?_, ?_, by simpa using hlen, ?_⟩
        · refine List.nodup_cons.mpr ⟨fun hin => ?_, hnd⟩
          have := hmem _ hin; omega
        · intro j hj
          rcases List.mem_cons.mp hj with rfl | hj
          · omega
          · have := hmem j hj; omega
        · simpa [probe] using ht0.trans htr
    · exact ⟨[], List.nodup_nil, by simp, by simp, Tracks.refl s⟩

/-! ## ExpSearch -/

theorem ExpSearch.gallop_succ (r : List Item) (x : Item) (fuel i last_i step : Nat) (s : Rec) :
    ExpSearch.loop r x (fuel + 1) i last_i step s =
      if i < r.length then
        if (r.getD i default).key < x.key then
          ExpSearch.loop r x fuel (i + step) i (step * 2) (Item.lt (r.getD i default) x s).2
        else ((i, last_i), (Item.lt (r.getD i default) x s).2)
      else ((i, last_i), s) := by
  simp only [ExpSearch.loop, Item.lt_fst, decide_eq_true_eq]

/-- The doubling loop, started with `step = i + 1` and enough fuel: after `j`
successful probes `i + 1` has been doubled `j` times, `last_i` is the last index
found smaller than the probe, the loop has stopped because its condition is
false, and the probed indices are pairwise different. -/
theorem ExpSearch.loop_doubling (r : List Item) (x : Item) (fuel i last_i : Nat) (s : Rec)
    (hf : r.length ≤ i + fuel) (w : (Nat × Nat) × Rec)
    (hw : ExpSearch.loop r x fuel i last_i (i + 1) s = w) :
    ∃ (j : Nat) (idxs : List Nat),
      w.1.1 + 1 = 2 ^ j * (i + 1) ∧
      (j = 0 → w.1.2 = last_i) ∧
      (0 < j → w.1.2 + 1 = 2 ^ (j - 1) * (i + 1) ∧ w.1.2 < r.length ∧
        (r.getD w.1.2 default).key < x.key) ∧
      (w.1.1 < r.length → ¬ (r.getD w.1.1 default).key < x.key) ∧
      idxs.Nodup ∧
      (∀ t ∈ idxs, t < r.length ∧ i ≤ t ∧ ((0 < j ∧ t ≤ w.1.2) ∨ t = w.1.1)) ∧
      idxs.length = j + (if w.1.1 < r.length then 1 else 0) ∧
      Tracks s w.2 (idxs.map (probe r x)) := by
  induction fuel generalizing i last_i s with
  | zero =>
    simp only [ExpSearch.loop] at hw
    subst hw
    have hi : ¬ i < r.length := by omega
    exact ⟨0, [], by simp, fun _ => rfl, fun h => absurd h (by omega), fun h => absurd h hi,
      List.nodup_nil, by simp, by simp [hi], Tracks.refl s⟩
  | succ fuel ih =>
    rw [ExpSearch.gallop_succ] at hw
    by_cases hi : i < r.length
    · rw [if_pos hi] at hw
      by_cases hlt : (r.getD i default).key < x.key
      · rw [if_pos hlt] at hw
        have hstep : (i + 1) * 2 = (i + (i + 1)) + 1 := by omega
        rw [hstep] at hw
        obtain ⟨j, idxs, h1, h2, h3, h4, h5, h6, h7, h8⟩ :=
          ih (i + (i + 1)) i (Item.lt (r.getD i default) x s).2 (by omega) hw
        have hpow : 2 ^ (j + 1) * (i + 1) = 2 ^ j * (i + (i + 1) + 1) := by ring
        have hlast : w.1.2 + 1 = 2 ^ j * (i + 1) ∧ w.1.2 < r.length ∧
            (r.getD w.1.2 default).key < x.key := by
          rcases Nat.eq_zero_or_pos j with hj | hj
          · have := h2 hj
            rw [this, hj]
            exact ⟨by simp, hi, hlt⟩
          · obtain ⟨m, rfl⟩ : ∃ m, j = m + 1 := ⟨j - 1, by omega⟩
            obtain ⟨e1, e2, e3⟩ := h3 hj
            refine ⟨?_, e2, e3⟩
            rw [e1]
            simp only [Nat.add_sub_cancel]
            ring
        have hile : i ≤ w.1.2 := by
          have h2p : 1 ≤ 2 ^ j := Nat.one_le_two_pow
          have : 1 * (i + 1) ≤ 2 ^ j * (i + 1) := Nat.mul_le_mul_right _ h2p
          omega
        refine ⟨j + 1, i :: idxs, by rw [hpow]; exact h1, fun h => absurd h (by omega),
          fun _ => by simpa using hlast, h4, ?_, ?_, ?_, ?_⟩
        · refine List.nodup_cons.mpr ⟨fun hin => ?_, h5⟩
          have := (h6 i hin).2.1; omega
        · intro t ht
          rcases List.mem_cons.mp ht with rfl | ht
          · exact ⟨hi, Nat.le_refl _, Or.inl ⟨by omega, hile⟩⟩
          · obtain ⟨a, b, c⟩ := h6 t ht
            refine ⟨a, by omega, ?_⟩
            rcases c with c | c
            · exact Or.inl ⟨by omega, c.2⟩
            · exact Or.inr c
        · simp only [List.length_cons, h7]; omega
        · simpa [probe] using (Item.lt_tracks (r.getD i default) x s).trans h8
      · rw [if_neg hlt] at hw
        subst hw
        exact ⟨0, [i], by simp, fun _ => rfl, fun h => absurd h (by omega), fun _ => hlt,
          List.nodup_singleton i, by simp [hi], by simp [hi],
          by simpa [probe] using Item.lt_tracks (r.getD i default) x s⟩
    · rw [if_neg hi] at hw
      subst hw
      exact ⟨0, [], by simp, fun _ => rfl, fun h => absurd h (by omega), fun h => absurd h hi,
        List.nodup_nil, by simp, by simp [hi], Tracks.refl s⟩

theorem IsLowerBound.of_getD {r : List Item} {x : Item} {p : Nat} (hp : p ≤ r.length)
    (h1 : ∀ j, j < p → (r.getD j default).key < x.key)
    (h2 : ∀ j, p ≤ j → j < r.length → ¬ (r.getD j default).key < x.key) :
    IsLowerBound r x p := by
  refine ⟨hp, ?_, ?_⟩
  · intro i e hi he
    have := h1 i hi
    rwa [getD_of_getElem? he] at this
  · intro i e hi he
    have := h2 i hi (getElem?_lt_length he)
    rwa [getD_of_getElem? he] at this

theorem ExpSearch_eq (r : List Item) (x : Item) (s : Rec) (w : (Nat × Nat) × Rec)
    (hw : ExpSearch.loop r x r.length 0 0 1 s = w) :
    ExpSearch r x s =
      if w.1.2 = w.1.1 then (0, w.2)
      else if r.length ≤ w.1.1 then
        if w.1.2 = r.length - 1 then (r.length, w.2)
        else if (r.getD (r.length - 1) default).key < x.key then
          (r.length, (Item.lt (r.getD (r.length - 1) default) x w.2).2)
        else
          lower_bound.loop r x (r.length - 1 - (w.1.2 + 1)) (w.1.2 + 1)
            (r.length - 1 - (w.1.2 + 1)) (Item.lt (r.getD (r.length - 1) default) x w.2).2
      else
        lower_bound.loop r x (w.1.1 - (w.1.2 + 1)) (w.1.2 + 1) (w.1.1 - (w.1.2 + 1)) w.2 := by
  subst hw
  simp only [ExpSearch, lower_bound, Item.lt_fst, decide_eq_true_eq]

theorem le_log_succ {m p : Nat} (h : 2 ^ m ≤ p) : m ≤ Nat.log 2 (p + 1) :=
  Nat.le_log_of_pow_le (by decide) (Nat.le_succ_of_le h)

/-- Everything about one call of `ExpSearch`: the result is inside the range,
the probed indices are pairwise different and inside the range, their number is
logarithmic in the result, and on a non-decreasing range the result is the
lower bound. -/
theorem ExpSearch_run (r : List Item) (x : Item) (s : Rec) :
    ∃ idxs : List Nat,
      (ExpSearch r x s).1 ≤ r.length ∧ idxs.Nodup ∧ (∀ t ∈ idxs, t < r.length) ∧
      idxs.length ≤ 2 * Nat.log 2 ((ExpSearch r x s).1 + 1) + 2 ∧
      Tracks s (ExpSearch r x s).2 (idxs.map (probe r x)) ∧
      (NonDecreasing r → IsLowerBound r x (ExpSearch r x s).1) := by
  obtain ⟨j, idxs0, h1, h2, h3, h4, h5, h6, h7, h8⟩ :=
    ExpSearch.loop_doubling r x r.length 0 0 s (by omega) (ExpSearch.loop r x r.length 0 0 1 s) rfl
  generalize hw2 : ExpSearch.loop r x r.length 0 0 1 s = w at h1 h2 h3 h4 h6 h7 h8
  generalize hres : ExpSearch r x s = res
  rw [ExpSearch_eq r x s w hw2] at hres
  simp only [Nat.zero_add, Nat.mul_one] at h1
  rcases Nat.eq_zero_or_pos j with hj | hj
  · -- the first element is not smaller than the probe, or the range is empty
    subst hj
    have hi0 : w.1.1 = 0 := by simpa using h1
    have hl0 : w.1.2 = 0 := h2 rfl
    rw [if_pos (by rw [hi0, hl0])] at hres
    subst hres
    refine ⟨idxs0, Nat.zero_le _, h5, fun t ht => (h6 t ht).1, ?_, h8, ?_⟩
    · rw [h7]; split <;> omega
    · intro hnd
      refine IsLowerBound.of_getD (Nat.zero_le _) (fun j hj => absurd hj (by simp)) ?_
      intro j _ hjl
      have h0 := h4 (by rw [hi0]; omega)
      rw [hi0] at h0
      have := hnd.getD_le (Nat.zero_le j) hjl
      simp only at this ⊢
      omega
  · obtain ⟨m, rfl⟩ : ∃ m, j = m + 1 := ⟨j - 1, by omega⟩
    obtain ⟨e1, e2, e3⟩ := h3 hj
    simp only [Nat.add_sub_cancel, Nat.zero_add, Nat.mul_one] at e1
    have hpw : 2 ^ (m + 1) = 2 * 2 ^ m := by ring
    have hpos : 1 ≤ 2 ^ m := Nat.one_le_two_pow
    have hne : ¬ w.1.2 = w.1.1 := by omega
    rw [if_neg hne] at hres
    have hbelow : ∀ hnd : NonDecreasing r, ∀ t, t ≤ w.1.2 → (r.getD t default).key < x.key := by
      intro hnd t ht
      have := hnd.getD_le ht e2
      omega
    by_cases hover : r.length ≤ w.1.1
    · rw [if_pos hover] at hres
      have hin0 : ∀ t ∈ idxs0, t ≤ w.1.2 := by
        intro t ht
        obtain ⟨a, _, c⟩ := h6 t ht
        rcases c with c | c
        · exact c.2
        · omega
      rw [if_neg (by omega)] at h7
      by_cases hlast : w.1.2 = r.length - 1
      · rw [if_pos hlast] at hres
        subst hres
        refine ⟨idxs0, Nat.le_refl _, h5, fun t ht => (h6 t ht).1, ?_, h8, ?_⟩
        · have := le_log_succ (p := r.length) (m := m) (by omega)
          simp only at this ⊢
          omega
        · intro hnd
          exact IsLowerBound.of_getD (Nat.le_refl _) (fun t ht => hbelow hnd t (by omega))
            (fun t h1 h2 => by omega)
      · rw [if_neg hlast] at hres
        have hc := Item.lt_tracks (r.getD (r.length - 1) default) x w.2
        have hnd1 : (idxs0 ++ [r.length - 1]).Nodup := by
          rw [List.nodup_append]
          refine ⟨h5, List.nodup_singleton _, ?_⟩
          intro a ha hb
          have := hin0 a ha
          simp at hb
          omega
        by_cases hfin : (r.getD (r.length - 1) default).key < x.key
        · rw [if_pos hfin] at hres
          subst hres
          refine ⟨idxs0 ++ [r.length - 1], Nat.le_refl _, hnd1, ?_, ?_, ?_, ?_⟩
          · intro t ht
            rcases List.mem_append.mp ht with ht | ht
            · exact (h6 t ht).1
            · simp at ht; omega
          · have := le_log_succ (p := r.length) (m := m) (by omega)
            simp only [List.length_append, List.length_singleton, h7] at this ⊢
            omega
          · simpa [probe] using h8.trans hc
          · intro hnd
            refine IsLowerBound.of_getD (Nat.le_refl _) ?_ (fun t h1 h2 => by omega)
            intro t ht
            have := hnd.getD_le (i := t) (j := r.length - 1) (by omega) (by omega)
            simp only at ht ⊢
            omega
        · rw [if_neg hfin] at hres
          subst hres
          have hb := lower_bound.loop_bounds r x (r.length - 1 - (w.1.2 + 1)) (w.1.2 + 1)
            (r.length - 1 - (w.1.2 + 1)) (Item.lt (r.getD (r.length - 1) default) x w.2).2
          obtain ⟨idl, g1, g2, g3, g4⟩ := lower_bound.loop_tracks r x
            (r.length - 1 - (w.1.2 + 1)) (w.1.2 + 1) (r.length - 1 - (w.1.2 + 1))
            (Item.lt (r.getD (r.length - 1) default) x w.2).2 m (Nat.le_refl _) (by omega)
          refine ⟨idxs0 ++ [r.length - 1] ++ idl, by omega, ?_, ?_, ?_, ?_, ?_⟩
          · rw [List.nodup_append]
            refine ⟨hnd1, g1, ?_⟩
            intro a ha hb
            have hb2 := g2 a hb
            rcases List.mem_append.mp ha with ha | ha
            · have := hin0 a ha; omega
            · simp at ha; omega
          · intro t ht
            rcases List.mem_append.mp ht with ht | ht
            · rcases List.mem_append.mp ht with ht | ht
              · exact (h6 t ht).1
              · simp at ht; omega
            · have := g2 t ht; omega
          · have := le_log_succ (m := m) (p := (lower_bound.loop r x (r.length - 1 - (w.1.2 + 1))
              (w.1.2 + 1) (r.length - 1 - (w.1.2 + 1))
              (Item.lt (r.getD (r.length - 1) default) x w.2).2).1) (by omega)
            simp only [List.length_append, List.length_singleton, h7]
            omega
          · have := (h8.trans hc).trans g4
            simpa [probe] using this
          · intro hnd
            obtain ⟨q1, q2⟩ := lower_bound.loop_partition r x hnd (r.length - 1 - (w.1.2 + 1))
              (w.1.2 + 1) (r.length - 1 - (w.1.2 + 1))
              (Item.lt (r.getD (r.length - 1) default) x w.2).2 (Nat.le_refl _) (by omega)
            refine IsLowerBound.of_getD (by omega) ?_ ?_
            · intro t ht
              by_cases htl : t ≤ w.1.2
              · exact hbelow hnd t htl
              · exact q1 t (by omega) ht
            · intro t ht htl
              by_cases hte : t = r.length - 1
              · rw [hte]; exact hfin
              · exact q2 t ht (by omega)
    · rw [if_neg hover] at hres
      subst hres
      have hlt : w.1.1 < r.length := by omega
      rw [if_pos hlt] at h7
      have hb := lower_bound.loop_bounds r x (w.1.1 - (w.1.2 + 1)) (w.1.2 + 1)
        (w.1.1 - (w.1.2 + 1)) w.2
      obtain ⟨idl, g1, g2, g3, g4⟩ := lower_bound.loop_tracks r x
        (w.1.1 - (w.1.2 + 1)) (w.1.2 + 1) (w.1.1 - (w.1.2 + 1)) w.2 m (Nat.le_refl _) (by omega)
      refine ⟨idxs0 ++ idl, by omega, ?_, ?_, ?_, h8.trans g4 |> (by simpa using ·), ?_⟩
      · rw [List.nodup_append]
        refine ⟨h5, g1, ?_⟩
        intro a ha hb
        have hb2 := g2 a hb
        obtain ⟨_, _, c⟩ := h6 a ha
        rcases c with c | c <;> omega
      · intro t ht
        rcases List.mem_append.mp ht with ht | ht
        · exact (h6 t ht).1
        · have := g2 t ht; omega
      · have := le_log_succ (m := m) (p := (lower_bound.loop r x (w.1.1 - (w.1.2 + 1))
          (w.1.2 + 1) (w.1.1 - (w.1.2 + 1)) w.2).1) (by omega)
        simp only [List.length_append, h7]
        omega
      · intro hnd
        obtain ⟨q1, q2⟩ := lower_bound.loop_partition r x hnd (w.1.1 - (w.1.2 + 1))
          (w.1.2 + 1) (w.1.1 - (w.1.2 + 1)) w.2 (Nat.le_refl _) (by omega)
        refine IsLowerBound.of_getD (by omega) ?_ ?_
        · intro t ht
          by_cases htl : t ≤ w.1.2
          · exact hbelow hnd t htl
          · exact q1 t (by omega) ht
        · intro t ht htl
          by_cases hte : t < w.1.1
          · exact q2 t ht (by omega)
          · have := hnd.getD_le (i := w.1.1) (j := t) (by omega) htl
            have := h4 hlt
            omega

/-- C3: on a non-decreasing range, the empty one included, `ExpSearch` returns
the lower bound of the probe: an index `p` with `p ≤ size` such that every
element before `p` is smaller than the probe and no element from `p` on is. -/
theorem ExpSearch_lower_bound (r : List Item) (x : Item) (s : Rec) (h : NonDecreasing r) :
    IsLowerBound r x (ExpSearch r x s).1 := by
  obtain ⟨_, _, _, _, _, _, hlb⟩ := ExpSearch_run r x s
  exact hlb h

theorem ExpSearch_lower_bound_witness :
    NonDecreasing (items [1, 3, 3, 8, 9, 12]) ∧
      IsLowerBound (items [1, 3, 3, 8, 9, 12]) ⟨9⟩
        (ExpSearch (items [1, 3, 3, 8, 9, 12]) ⟨9⟩ (Rec.fresh 13)).1 :=
  ⟨by decide, ExpSearch_lower_bound (items [1, 3, 3, 8, 9, 12]) ⟨9⟩ (Rec.fresh 13) (by decide)⟩

/-- C5: on a non-decreasing range `LinSearch` and `ExpSearch` return the same
index for the same probe, whatever the state of the recorder. -/
theorem LinSearch_eq_ExpSearch (r : List Item) (x : Item) (s t : Rec) (h : NonDecreasing r) :
    (LinSearch r x s).1 = (ExpSearch r x t).1 := by
  obtain ⟨_, _, _, _, _, _, hlb⟩ := ExpSearch_run r x t
  exact (LinSearch_isLowerBound r x s h).unique (hlb h)

theorem LinSearch_eq_ExpSearch_witness :
    NonDecreasing (items [1, 3, 3, 8, 9, 12]) ∧
      (LinSearch (items [1, 3, 3, 8, 9, 12]) ⟨9⟩ (Rec.fresh 13)).1 =
        (ExpSearch (items [1, 3, 3, 8, 9, 12]) ⟨9⟩ (Rec.fresh 13)).1 :=
  ⟨by decide,
    LinSearch_eq_ExpSearch (items [1, 3, 3, 8, 9, 12]) ⟨9⟩ (Rec.fresh 13) (Rec.fresh 13)
      (by decide)⟩

/-- C8: with `a = 2` and `b = 2`, for every range (non-decreasing or not) and
every probe the number of order comparisons of `ExpSearch` (doubling probes,
the check of the final element and the binary search together) is at most
`a * floor(log2 (k + 1)) + b`, where `k` is the index `ExpSearch` returns. -/
theorem ExpSearch_comparison_bound (r : List Item) (x : Item) (s : Rec) :
    comparisons s (ExpSearch r x s).2 ≤ 2 * Nat.log 2 ((ExpSearch r x s).1 + 1) + 2 := by
  obtain ⟨idxs, _, _, _, hlen, htr, _⟩ := ExpSearch_run r x s
  rw [htr.comparisons]
  simpa using hlen

/-! ## merge -/

theorem merge.loop_nil (f : Search) (fuel : Nat) (ys : List Item) (first : Bool)
    (result : List Item) (s : Rec) :
    merge.loop f fuel [] ys first result s = .ok (result, s) := by
  cases fuel <;> rfl

theorem merge.loop_right_empty (f : Search) (fuel : Nat) (x : Item) (xt : List Item)
    (first : Bool) (result : List Item) (s : Rec) :
    merge.loop f (fuel + 1) (x :: xt) [] first result s = .ok (result ++ x :: xt, s) := by
  simp [merge.loop]

theorem merge.loop_step (f : Search) (fuel : Nat) (x : Item) (xt ys : List Item)
    (first : Bool) (result : List Item) (s : Rec) (hys : ys ≠ [])
    (d : Nat) (hd : d = if first then 0 else 1) (q : Nat × Rec) (hq : q = f (ys.drop d) x s) :
    merge.loop f (fuel + 1) (x :: xt) ys first result s =
      match ys.drop (d + q.1) with
      | [] => .ok (result ++ ys.take (d + q.1) ++ x :: xt, q.2)
      | y :: yt =>
        match xt with
        | [] => .ok (result ++ ys.take (d + q.1) ++ [x], q.2)
        | _ :: _ =>
          merge.loop f fuel (xt.drop (f xt y q.2).1) (y :: yt) false
            (result ++ ys.take (d + q.1) ++ x :: xt.take (f xt y q.2).1) (f xt y q.2).2 := by
  subst hd hq
  cases ys with
  | nil => exact absurd rfl hys
  | cons y0 yt0 =>
    simp only [merge.loop]
    split
    · rename_i y yt result1 s1 heq
      simp only [Prod.mk.injEq] at heq
      obtain ⟨h1, h2, h3⟩ := heq
      rw [h1]
      cases xt with
      | nil => simp [merge.loop_nil, h2, h3]
      | cons x2 xt2 => simp [h2, h3]
    · rename_i result1 s1 heq
      simp only [Prod.mk.injEq] at heq
      obtain ⟨h1, h2, h3⟩ := heq
      rw [h1]
      simp [merge.loop_nil, h2, h3]

theorem map_take_eq_map_range (g : Item → Nat × Nat) (r : List Item) (n : Nat) :
    (r.take n).map g = (List.range (min n r.length)).map (fun j => g (r.getD j default)) := by
  induction r generalizing n with
  | nil => simp
  | cons a r ih =>
    cases n with
    | zero => simp
    | succ n =>
      have : min (n + 1) (a :: r).length = min n r.length + 1 := by
        simp only [List.length_cons]; omega
      rw [this, List.range_succ_eq_map, List.take_succ_cons, List.map_cons, ih n]
      simp [Function.comp_def]

theorem LinSearch_sound : Search.Sound LinSearch where
  le := LinSearch_le
  lower := fun r x s h => LinSearch_isLowerBound r x s h
  probes := by
    intro r x s
    refine ⟨List.range (min ((LinSearch r x s).1 + 1) r.length), List.nodup_range _, ?_, ?_⟩
    · intro t ht
      have := List.mem_range.mp ht
      omega
    · have := LinSearch_tracks r x s
      rw [map_take_eq_map_range] at this
      exact this

theorem ExpSearch_sound : Search.Sound ExpSearch where
  le := fun r x s => by
    obtain ⟨_, h, _⟩ := ExpSearch_run r x s
    exact h
  lower := fun r x s h => by
    obtain ⟨_, _, _, _, _, _, hlb⟩ := ExpSearch_run r x s
    exact hlb h
  probes := fun r x s => by
    obtain ⟨idxs, _, h1, h2, _, h3, _⟩ := ExpSearch_run r x s
    exact ⟨idxs, h1, h2, h3⟩

theorem NonDecreasing.append_iff {a b : List Item} :
    NonDecreasing (a ++ b) ↔
      NonDecreasing a ∧ NonDecreasing b ∧ ∀ x ∈ a, ∀ y ∈ b, x.key ≤ y.key :=
  List.pairwise_append

theorem NonDecreasing.take {l : List Item} (h : NonDecreasing l) (k : Nat) :
    NonDecreasing (l.take k) :=
  List.Pairwise.sublist (List.take_sublist k l) h

theorem NonDecreasing.drop {l : List Item} (h : NonDecreasing l) (k : Nat) :
    NonDecreasing (l.drop k) :=
  List.Pairwise.sublist (List.drop_sublist k l) h

theorem NonDecreasing.take_le_drop {l : List Item} (h : NonDecreasing l) (k : Nat)
    {a b : Item} (ha : a ∈ l.take k) (hb : b ∈ l.drop k) : a.key ≤ b.key := by
  have h2 : NonDecreasing (l.take k ++ l.drop k) := by rw [List.take_append_drop]; exact h
  exact (NonDecreasing.append_iff.mp h2).2.2 a ha b hb

theorem NonDecreasing.head_le {x : Item} {l : List Item} (h : NonDecreasing (x :: l))
    {b : Item} (hb : b ∈ l) : x.key ≤ b.key :=
  List.rel_of_pairwise_cons h hb

theorem NonDecreasing.tail {x : Item} {l : List Item} (h : NonDecreasing (x :: l)) :
    NonDecreasing l :=
  List.Pairwise.of_cons h

theorem count_take_add_drop (a : Item) (l : List Item) (k : Nat) :
    (l.take k).count a + (l.drop k).count a = l.count a := by
  rw [← List.count_append, List.take_append_drop]

theorem merge.loop_sorted_nil (f : Search) (fuel : Nat) (ys : List Item) (first : Bool)
    (result : List Item) (s : Rec) (hys : NonDecreasing ys) (hres : NonDecreasing result)
    (h : ∀ a ∈ result, ∀ b ∈ ys, a.key ≤ b.key) :
    ∃ res s1 k, merge.loop f fuel [] ys first result s = .ok (res, s1) ∧ k ≤ ys.length ∧
      res.Perm (result ++ [] ++ ys.take k) ∧ NonDecreasing (res ++ ys.drop k) ∧
      res.length = result.length + ([] : List Item).length + k := by
  refine ⟨result, s, 0, merge.loop_nil .., Nat.zero_le _, by simp, ?_, by simp⟩
  simpa using NonDecreasing.append_iff.mpr ⟨hres, hys, h⟩

/-- The loop of `merge` on two non-decreasing runs.  At the head of the loop
the scratch buffer is non-decreasing and below everything still to come, and
after the first iteration the element at the right cursor is not above the
element at the left cursor.  The loop then ends normally, having moved the
whole left run and the first `k` elements of the right run into the buffer,
and the buffer followed by the rest of the right run is non-decreasing. -/
theorem merge.loop_sorted (f : Search) (hf : Search.Sound f) (fuel : Nat) (xs ys : List Item)
    (first : Bool) (result : List Item) (s : Rec)
    (hfuel : xs.length ≤ fuel) (hxs : NonDecreasing xs) (hys : NonDecreasing ys)
    (hres : NonDecreasing result)
    (hle : ∀ a ∈ result, ∀ b ∈ xs ++ ys, a.key ≤ b.key)
    (hfirst : first = false → ∀ x ∈ xs, ∃ y yt, ys = y :: yt ∧ y.key ≤ x.key) :
    ∃ res s1 k, merge.loop f fuel xs ys first result s = .ok (res, s1) ∧ k ≤ ys.length ∧
      res.Perm (result ++ xs ++ ys.take k) ∧ NonDecreasing (res ++ ys.drop k) ∧
      res.length = result.length + xs.length + k := by
  induction fuel generalizing xs ys first result s with
  | zero =>
    have : xs = [] := List.length_eq_zero.mp (by omega)
    subst this
    exact merge.loop_sorted_nil f 0 ys first result s hys hres
      (fun a ha b hb => hle a ha b (by simpa using hb))
  | succ fuel ih =>
    cases xs with
    | nil =>
      exact merge.loop_sorted_nil f _ ys first result s hys hres
        (fun a ha b hb => hle a ha b (by simpa using hb))
    | cons x xt =>
      have hx_le : ∀ b ∈ x :: xt, x.key ≤ b.key := by
        intro b hb
        rcases List.mem_cons.mp hb with rfl | hb
        · exact Nat.le_refl _
        · exact hxs.head_le hb
      by_cases hy : ys = []
      · subst hy
        rw [merge.loop_right_empty]
        refine ⟨_, s, 0, rfl, Nat.zero_le _, by simp, ?_, by simp⟩
        simpa using NonDecreasing.append_iff.mpr
          ⟨hres, hxs, fun a ha b hb => hle a ha b (by simpa using hb)⟩
      · obtain ⟨d, hd⟩ : ∃ d, d = if first then 0 else 1 := ⟨_, rfl⟩
        obtain ⟨q, hq⟩ : ∃ q, q = f (ys.drop d) x s := ⟨_, rfl⟩
        rw [merge.loop_step f fuel x xt ys first result s hy d hd q hq]
        have hlb : IsLowerBound (ys.drop d) x q.1 := hq ▸ hf.lower _ _ _ (hys.drop d)
        have htake_le : ∀ e ∈ ys.take (d + q.1), e.key ≤ x.key := by
          intro e he
          rw [List.take_add] at he
          rcases List.mem_append.mp he with he | he
          · cases first with
            | true => simp [hd] at he
            | false =>
              obtain ⟨y, yt, hyy, hyx⟩ := hfirst rfl x (List.mem_cons_self _ _)
              simp [hd, hyy] at he
              rw [he]; exact hyx
          · exact Nat.le_of_lt (hlb.mem_take he)
        have hdrop_ge : ∀ e ∈ ys.drop (d + q.1), x.key ≤ e.key := by
          intro e he
          rw [← List.drop_drop] at he
          exact hlb.mem_drop he
        have hres1 : NonDecreasing (result ++ ys.take (d + q.1)) :=
          NonDecreasing.append_iff.mpr ⟨hres, hys.take _, fun a ha b hb =>
            hle a ha b (List.mem_append_right _ (List.mem_of_mem_take hb))⟩
        have hres1_le : ∀ a ∈ result ++ ys.take (d + q.1), ∀ b ∈ x :: xt, a.key ≤ b.key := by
          intro a ha b hb
          rcases List.mem_append.mp ha with ha | ha
          · exact hle a ha b (List.mem_append_left _ hb)
          · exact Nat.le_trans (htake_le a ha) (hx_le b hb)
        split
        · rename_i heq
          have hall : ys.take (d + q.1) = ys :=
            List.take_of_length_le (List.drop_eq_nil_iff.mp heq)
          refine ⟨_, q.2, ys.length, rfl, Nat.le_refl _, ?_, ?_, ?_⟩
          · rw [hall, List.take_length, List.perm_iff_count]
            intro a
            simp only [List.count_append]
            omega
          · rw [List.drop_length, List.append_nil]
            exact NonDecreasing.append_iff.mpr ⟨hres1, hxs, hres1_le⟩
          · rw [hall]
            simp only [List.length_append, List.length_cons]
            omega
        · rename_i y yt heq
          have hk1 : d + q.1 < ys.length := by
            have := congrArg List.length heq
            simp only [List.length_drop, List.length_cons] at this
            omega
          have hylen : (y :: yt).length = ys.length - (d + q.1) := by
            rw [← heq, List.length_drop]
          have hys1 : NonDecreasing (y :: yt) := heq ▸ hys.drop _
          have hy_ge : ∀ b ∈ y :: yt, x.key ≤ b.key := fun b hb => hdrop_ge b (heq ▸ hb)
          cases xt with
          | nil =>
            refine ⟨_, q.2, d + q.1, rfl, Nat.le_of_lt hk1, ?_, ?_, ?_⟩
            · rw [List.perm_iff_count]
              intro a
              simp only [List.count_append]
              omega
            · rw [heq]
              refine NonDecreasing.append_iff.mpr ⟨NonDecreasing.append_iff.mpr
                ⟨hres1, hxs, hres1_le⟩, hys1, ?_⟩
              intro a ha b hb
              rcases List.mem_append.mp ha with ha | ha
              · rcases List.mem_append.mp ha with ha | ha
                · exact hle a ha b (List.mem_append_right _
                    (List.mem_of_mem_drop (heq ▸ hb)))
                · exact hys.take_le_drop _ ha (heq ▸ hb)
              · simp at ha
                rw [ha]; exact hy_ge b hb
            · simp only [List.length_append, List.length_take, List.length_cons,
                List.length_nil]
              omega
          | cons x2 xt2 =>
            simp only []
            obtain ⟨q2, hq2⟩ : ∃ q2, q2 = f (x2 :: xt2) y q.2 := ⟨_, rfl⟩
            rw [← hq2]
            have hxt : NonDecreasing (x2 :: xt2) := hxs.tail
            have hlb2 : IsLowerBound (x2 :: xt2) y q2.1 := hq2 ▸ hf.lower _ _ _ hxt
            have hp2 : q2.1 ≤ (x2 :: xt2).length := hlb2.1
            obtain ⟨res, s1, k, e1, e2, e3, e4, e5⟩ := ih ((x2 :: xt2).drop q2.1) (y :: yt) false
              (result ++ ys.take (d + q.1) ++ x :: (x2 :: xt2).take q2.1) q2.2
              (by
                simp only [List.length_drop, List.length_cons] at hfuel ⊢
                omega)
              (hxt.drop _) hys1
              (by
                refine NonDecreasing.append_iff.mpr ⟨hres1, ?_, ?_⟩
                · have := hxs.take (q2.1 + 1)
                  simpa using this
                · intro a ha b hb
                  refine hres1_le a ha b ?_
                  rcases List.mem_cons.mp hb with rfl | hb
                  · exact List.mem_cons_self _ _
                  · exact List.mem_cons_of_mem _ (List.mem_of_mem_take hb))
              (by
                intro a ha b hb
                rcases List.mem_append.mp ha with ha | ha
                · rcases List.mem_append.mp hb with hb | hb
                  · exact hres1_le a ha b (List.mem_cons_of_mem _ (List.mem_of_mem_drop hb))
                  · rcases List.mem_append.mp ha with ha | ha
                    · exact hle a ha b (List.mem_append_right _
                        (List.mem_of_mem_drop (heq ▸ hb)))
                    · exact hys.take_le_drop _ ha (heq ▸ hb)
                · rcases List.mem_cons.mp ha with rfl | ha
                  · rcases List.mem_append.mp hb with hb | hb
                    · exact hx_le b (List.mem_cons_of_mem _ (List.mem_of_mem_drop hb))
                    · exact hy_ge b hb
                  · rcases List.mem_append.mp hb with hb | hb
                    · exact hxt.take_le_drop _ ha hb
                    · have h1 := hlb2.mem_take ha
                      have h2 : y.key ≤ b.key := by
                        rcases List.mem_cons.mp hb with rfl | hb
                        · exact Nat.le_refl _
                        · exact hys1.head_le hb
                      omega)
              (by
                intro _ x1 hx1
                exact ⟨y, yt, rfl, hlb2.mem_drop hx1⟩)
            refine ⟨res, s1, d + q.1 + k, e1, by omega, ?_, ?_, ?_⟩
            · rw [List.take_add, heq]
              rw [List.perm_iff_count] at e3 ⊢
              intro a
              have h1 := e3 a
              have h2 := count_take_add_drop a (x2 :: xt2) q2.1
              simp only [List.count_append, List.count_cons] at h1 h2 ⊢
              omega
            · rw [← List.drop_drop, heq]
              exact e4
            · rw [e5]
              simp only [List.length_append, List.length_take, List.length_drop,
                List.length_cons]
              simp only [List.length_cons] at hp2
              omega

theorem Item.check_no_dups_eq (s : Rec) : Item.check_no_dups s = .ok s := by
  simp [Item.check_no_dups, Item.check_dups]

theorem merge_of_loop (f : Search) (r : List Item) (s : Rec) (result : List Item) (s1 : Rec)
    (h : merge.loop f r.length (r.take (r.length / 2)) (r.drop (r.length / 2)) true []
      { s with record_compares := true, compare_pairs := [] } = .ok (result, s1)) :
    merge f r s = .ok (result ++ r.drop result.length, { s1 with record_compares := false }) := by
  simp only [merge, h, Item.check_no_dups_eq]

/-- The function `merge` with a sound search strategy on a range with two
non-decreasing halves. -/
theorem merge_of_sound_sorted (f : Search) (hf : Search.Sound f) (r : List Item) (s : Rec)
    (hl : NonDecreasing (r.take (r.length / 2))) (hr : NonDecreasing (r.drop (r.length / 2))) :
    ∃ result s1 r1 s2,
      merge.loop f r.length (r.take (r.length / 2)) (r.drop (r.length / 2)) true []
        { s with record_compares := true, compare_pairs := [] } = .ok (result, s1) ∧
      merge f r s = .ok (r1, s2) ∧ r1 = result ++ r.drop result.length ∧
      r.length / 2 ≤ result.length ∧ result.length ≤ r.length ∧
      result.Perm (r.take result.length) ∧
      (∀ a ∈ result, ∀ b ∈ r.drop result.length, a.key ≤ b.key) ∧
      NonDecreasing r1 ∧ r1.Perm r := by
  obtain ⟨res, s1, k, e1, e2, e3, e4, e5⟩ := merge.loop_sorted f hf r.length
    (r.take (r.length / 2)) (r.drop (r.length / 2)) true []
    { s with record_compares := true, compare_pairs := [] }
    (by simp only [List.length_take]; omega) hl hr List.Pairwise.nil
    (fun a ha => absurd ha (List.not_mem_nil a)) (fun h => absurd h (by simp))
  have hlen : res.length = r.length / 2 + k := by
    rw [e5]; simp only [List.length_nil, List.length_take]; omega
  have hk : k ≤ r.length - r.length / 2 := by simpa using e2
  have hdrop : r.drop res.length = (r.drop (r.length / 2)).drop k := by
    rw [hlen, List.drop_drop]
  have htake : r.take res.length = r.take (r.length / 2) ++ (r.drop (r.length / 2)).take k := by
    rw [hlen, List.take_add]
  have hperm : res.Perm (r.take res.length) := by
    rw [htake]; simpa using e3
  have hnd : NonDecreasing (res ++ r.drop res.length) := by rw [hdrop]; exact e4
  refine ⟨res, s1, _, _, e1, merge_of_loop f r s res s1 e1, rfl, by omega, by omega, hperm,
    (NonDecreasing.append_iff.mp hnd).2.2, hnd, ?_⟩
  have := List.Perm.append_right (r.drop res.length) hperm
  rwa [List.take_append_drop] at this

/-- C2: for a range of any length, odd lengths and duplicate keys included,
whose halves `[0, size/2)` and `[size/2, size)` are non-decreasing, and for either
search strategy, `merge` ends normally and leaves the range non-decreasing and
a permutation of what it was.  The range after `merge` is the scratch buffer
followed by the part of the right run that was never copied, in its original
order; that part lies inside the right run and nothing in the buffer is
greater than anything in it. -/
theorem merge_sorted (f : Search) (hf : f = LinSearch ∨ f = ExpSearch) (r : List Item) (s : Rec)
    (hl : NonDecreasing (r.take (r.length / 2))) (hr : NonDecreasing (r.drop (r.length / 2))) :
    ∃ result s1 r1 s2,
      merge.loop f r.length (r.take (r.length / 2)) (r.drop (r.length / 2)) true []
        { s with record_compares := true, compare_pairs := [] } = .ok (result, s1) ∧
      merge f r s = .ok (r1, s2) ∧ r1 = result ++ r.drop result.length ∧
      r.length / 2 ≤ result.length ∧ result.length ≤ r.length ∧
      result.Perm (r.take result.length) ∧
      (∀ a ∈ result, ∀ b ∈ r.drop result.length, a.key ≤ b.key) ∧
      NonDecreasing r1 ∧ r1.Perm r := by
  rcases hf with rfl | rfl
  · exact merge_of_sound_sorted LinSearch LinSearch_sound r s hl hr
  · exact merge_of_sound_sorted ExpSearch ExpSearch_sound r s hl hr

theorem merge_sorted_witness :
    NonDecreasing ((items [2, 2, 7, 1, 2, 9, 9]).take ((items [2, 2, 7, 1, 2, 9, 9]).length / 2)) ∧
      NonDecreasing ((items [2, 2, 7, 1, 2, 9, 9]).drop ((items [2, 2, 7, 1, 2, 9, 9]).length / 2)) ∧
      ∃ result s1 r1 s2,
        merge.loop ExpSearch (items [2, 2, 7, 1, 2, 9, 9]).length
          ((items [2, 2, 7, 1, 2, 9, 9]).take ((items [2, 2, 7, 1, 2, 9, 9]).length / 2))
          ((items [2, 2, 7, 1, 2, 9, 9]).drop ((items [2, 2, 7, 1, 2, 9, 9]).length / 2)) true []
          { Rec.fresh 10 with record_compares := true, compare_pairs := [] } = .ok (result, s1) ∧
        merge ExpSearch (items [2, 2, 7, 1, 2, 9, 9]) (Rec.fresh 10) = .ok (r1, s2) ∧
        r1 = result ++ (items [2, 2, 7, 1, 2, 9, 9]).drop result.length ∧
        (items [2, 2, 7, 1, 2, 9, 9]).length / 2 ≤ result.length ∧
        result.length ≤ (items [2, 2, 7, 1, 2, 9, 9]).length ∧
        result.Perm ((items [2, 2, 7, 1, 2, 9, 9]).take result.length) ∧
        (∀ a ∈ result, ∀ b ∈ (items [2, 2, 7, 1, 2, 9, 9]).drop result.length, a.key ≤ b.key) ∧
        NonDecreasing r1 ∧ r1.Perm (items [2, 2, 7, 1, 2, 9, 9]) :=
  ⟨by decide, by decide,
    merge_sorted ExpSearch (Or.inr rfl) (items [2, 2, 7, 1, 2, 9, 9]) (Rec.fresh 10)
      (by decide) (by decide)⟩

theorem mergesort_succ (f : Search) (fuel : Nat) (r : List Item) (s : Rec) :
    mergesort f (fuel + 1) r s =
      if r.length = 1 then .ok (r, s)
      else if r.length % 2 ≠ 0 then .error Fault.assertion
      else
        match mergesort f fuel (r.take (r.length / 2)) s with
        | .error e => .error e
        | .ok (l, s1) =>
          match mergesort f fuel (r.drop (r.length / 2)) s1 with
          | .error e => .error e
          | .ok (u, s2) => merge f (l ++ u) s2 := by
  simp only [mergesort]

/-- The function `mergesort` with a sound search strategy on a range of length
`2 ^ k`: a recursion depth of more than `k` is enough, and the range ends
non-decreasing and a permutation of what it was. -/
theorem mergesort_sorted_of_sound (f : Search) (hf : Search.Sound f) (k fuel : Nat)
    (r : List Item) (s : Rec) (hlen : r.length = 2 ^ k) (hfuel : k < fuel) :
    ∃ r1 s1, mergesort f fuel r s = .ok (r1, s1) ∧ r1.Perm r ∧ NonDecreasing r1 := by
  induction k generalizing fuel r s with
  | zero =>
    obtain ⟨n, rfl⟩ : ∃ n, fuel = n + 1 := ⟨fuel - 1, by omega⟩
    have h1 : r.length = 1 := by simpa using hlen
    rw [mergesort_succ, if_pos h1]
    obtain ⟨a, rfl⟩ := List.length_eq_one.mp h1
    exact ⟨[a], s, rfl, List.Perm.refl _, List.pairwise_singleton _ _⟩
  | succ k ih =>
    obtain ⟨n, rfl⟩ : ∃ n, fuel = n + 1 := ⟨fuel - 1, by omega⟩
    have hpos : 1 ≤ 2 ^ k := Nat.one_le_two_pow
    have h2 : r.length = 2 * 2 ^ k := by rw [hlen, pow_succ]; ring
    have hhalf : r.length / 2 = 2 ^ k := by omega
    rw [mergesort_succ, if_neg (by omega), if_neg (by omega), hhalf]
    obtain ⟨l, s1, e1, p1, n1⟩ := ih n (r.take (2 ^ k)) s
      (by rw [List.length_take]; omega) (by omega)
    obtain ⟨u, s2, e2, p2, n2⟩ := ih n (r.drop (2 ^ k)) s1
      (by rw [List.length_drop]; omega) (by omega)
    rw [e1]; simp only []
    rw [e2]; simp only []
    have hll : l.length = 2 ^ k := by rw [List.Perm.length_eq p1, List.length_take]; omega
    have hul : u.length = 2 ^ k := by rw [List.Perm.length_eq p2, List.length_drop]; omega
    have hm : (l ++ u).length / 2 = l.length := by
      rw [List.length_append]; omega
    obtain ⟨_, _, r1, s3, _, e3, _, _, _, _, _, n3, p3⟩ := merge_of_sound_sorted f hf (l ++ u) s2
      (by rw [hm, List.take_left]; exact n1) (by rw [hm, List.drop_left]; exact n2)
    refine ⟨r1, s3, e3, ?_, n3⟩
    have := (p1.append p2)
    rw [List.take_append_drop] at this
    exact p3.trans this

theorem keys_eq_range_of_sorted_perm (n : Nat) (r1 : List Item) (hnd : NonDecreasing r1)
    (hp : (r1.map Item.key).Perm (List.range n)) : r1.map Item.key = List.range n := by
  have h1 : (r1.map Item.key).Sorted (· ≤ ·) := by
    unfold List.Sorted
    rw [List.pairwise_map]
    exact hnd
  exact List.eq_of_perm_of_sorted hp h1 (List.sorted_le_range n)

/-- C1: for `n = 2 ^ k` and a range whose keys are a permutation of `[0, n)`,
`mergesort` with `LinSearch` and `mergesort` with `ExpSearch` (any recursion
bound above `k`) each end normally and leave the range a permutation of the
input with strictly ascending keys, that is the keys `0, 1, ..., n - 1`. -/
theorem mergesort_sorts (f : Search) (hf : f = LinSearch ∨ f = ExpSearch) (k fuel : Nat)
    (r : List Item) (s : Rec) (hperm : (r.map Item.key).Perm (List.range (2 ^ k)))
    (hfuel : k < fuel) :
    ∃ r1 s1, mergesort f fuel r s = .ok (r1, s1) ∧ r1.Perm r ∧
      (r1.map Item.key).Sorted (· < ·) ∧ r1.map Item.key = List.range (2 ^ k) := by
  have hs : Search.Sound f := by
    rcases hf with rfl | rfl
    · exact LinSearch_sound
    · exact ExpSearch_sound
  have hlen : r.length = 2 ^ k := by
    have := hperm.length_eq
    simpa using this
  obtain ⟨r1, s1, e, p, nd⟩ := mergesort_sorted_of_sound f hs k fuel r s hlen hfuel
  have hk := keys_eq_range_of_sorted_perm (2 ^ k) r1 nd ((p.map Item.key).trans hperm)
  refine ⟨r1, s1, e, p, ?_, hk⟩
  rw [hk]
  exact List.sorted_lt_range _

theorem mergesort_sorts_witness :
    (LinSearch = LinSearch ∨ LinSearch = ExpSearch) ∧
      ((items [2, 0, 3, 1]).map Item.key).Perm (List.range (2 ^ 2)) ∧ 2 < 3 ∧
      ∃ r1 s1, mergesort LinSearch 3 (items [2, 0, 3, 1]) (Rec.fresh 4) = .ok (r1, s1) ∧
        r1.Perm (items [2, 0, 3, 1]) ∧ (r1.map Item.key).Sorted (· < ·) ∧
        r1.map Item.key = List.range (2 ^ 2) :=
  ⟨Or.inl rfl, by decide, by decide,
    mergesort_sorts LinSearch (Or.inl rfl) 2 3 (items [2, 0, 3, 1]) (Rec.fresh 4)
      (by decide) (by decide)⟩

/-! ## The number of comparisons of merge and mergesort with LinSearch -/

theorem LinSearch_cost (r : List Item) (x : Item) (s : Rec) :
    ∃ tr, Tracks s (LinSearch r x s).2 tr ∧ tr.length = min ((LinSearch r x s).1 + 1) r.length ∧
      ∀ p ∈ tr, (∃ a ∈ r, a.key = p.1) ∧ p.2 = x.key := by
  refine ⟨_, LinSearch_tracks r x s, by simp, ?_⟩
  intro p hp
  obtain ⟨e, he, rfl⟩ := List.mem_map.mp hp
  exact ⟨⟨e, List.mem_of_mem_take he, rfl⟩, rfl⟩

/-- The comparisons of the loop of `merge` with `LinSearch`: started with a
non-empty left run, the loop makes fewer comparisons than there are elements
left in the two runs (one fewer still after the first iteration), all of them
between elements of the two runs. -/
theorem merge.loop_cost (fuel : Nat) (xs ys : List Item) (first : Bool) (result : List Item)
    (s : Rec) (hfuel : xs.length ≤ fuel) (hfirst : first = false → xs ≠ [] → ys ≠ []) :
    ∃ res s1 tr, merge.loop LinSearch fuel xs ys first result s = .ok (res, s1) ∧
      Tracks s s1 tr ∧
      (tr = [] ∨ tr.length + 1 + (if first then 0 else 1) ≤ xs.length + ys.length) ∧
      (∀ p ∈ tr, (∃ a ∈ xs ++ ys, a.key = p.1) ∧ (∃ b ∈ xs ++ ys, b.key = p.2)) := by
  induction fuel generalizing xs ys first result s with
  | zero =>
    have : xs = [] := List.length_eq_zero.mp (by omega)
    subst this
    exact ⟨result, s, [], merge.loop_nil .., Tracks.refl s, Or.inl rfl, by simp⟩
  | succ fuel ih =>
    cases xs with
    | nil => exact ⟨result, s, [], merge.loop_nil .., Tracks.refl s, Or.inl rfl, by simp⟩
    | cons x xt =>
      by_cases hy : ys = []
      · subst hy
        rw [merge.loop_right_empty]
        exact ⟨_, s, [], rfl, Tracks.refl s, Or.inl rfl, by simp⟩
      · obtain ⟨d, hd⟩ : ∃ d, d = if first then 0 else 1 := ⟨_, rfl⟩
        obtain ⟨q, hq⟩ : ∃ q, q = LinSearch (ys.drop d) x s := ⟨_, rfl⟩
        rw [merge.loop_step LinSearch fuel x xt ys first result s hy d hd q hq, ← hd]
        obtain ⟨tr1, t1, l1, m1⟩ := LinSearch_cost (ys.drop d) x s
        rw [← hq] at t1 l1
        have hq_le : q.1 ≤ (ys.drop d).length := hq ▸ LinSearch_le _ _ _
        have hylen : 0 < ys.length := List.length_pos.mpr hy
        have hd1 : d ≤ 1 := by rw [hd]; split <;> omega
        simp only [List.length_drop] at l1 hq_le
        have hm1 : ∀ p ∈ tr1, (∃ a ∈ (x :: xt) ++ ys, a.key = p.1) ∧
            (∃ b ∈ (x :: xt) ++ ys, b.key = p.2) := by
          intro p hp
          obtain ⟨⟨a, ha, hak⟩, hx⟩ := m1 p hp
          exact ⟨⟨a, List.mem_append_right _ (List.mem_of_mem_drop ha), hak⟩,
            ⟨x, by simp, hx.symm⟩⟩
        split
        · rename_i heq
          have := List.drop_eq_nil_iff.mp heq
          refine ⟨_, q.2, tr1, rfl, t1, Or.inr ?_, hm1⟩
          simp only [List.length_cons]
          omega
        · rename_i y yt heq
          have hk1 : d + q.1 < ys.length := by
            have := congrArg List.length heq
            simp only [List.length_drop, List.length_cons] at this
            omega
          have hyl : (y :: yt).length = ys.length - (d + q.1) := by
            rw [← heq, List.length_drop]
          have hymem : y ∈ ys := List.mem_of_mem_drop (heq ▸ List.mem_cons_self y yt)
          cases xt with
          | nil =>
            refine ⟨_, q.2, tr1, rfl, t1, Or.inr ?_, hm1⟩
            simp only [List.length_cons, List.length_nil]
            omega
          | cons x2 xt2 =>
            simp only []
            obtain ⟨q2, hq2⟩ : ∃ q2, q2 = LinSearch (x2 :: xt2) y q.2 := ⟨_, rfl⟩
            rw [← hq2]
            obtain ⟨tr2, t2, l2, m2⟩ := LinSearch_cost (x2 :: xt2) y q.2
            rw [← hq2] at t2 l2
            have hq2_le : q2.1 ≤ (x2 :: xt2).length := hq2 ▸ LinSearch_le _ _ _
            obtain ⟨res, s1, tr3, e3, t3, l3, m3⟩ := ih ((x2 :: xt2).drop q2.1) (y :: yt) false
              (result ++ ys.take (d + q.1) ++ x :: (x2 :: xt2).take q2.1) q2.2
              (by
                simp only [List.length_drop, List.length_cons] at hfuel ⊢
                omega)
              (fun _ _ => List.cons_ne_nil _ _)
            refine ⟨res, s1, tr1 ++ tr2 ++ tr3, e3, (t1.trans t2).trans t3, Or.inr ?_, ?_⟩
            · simp only [List.length_append, List.length_cons, List.length_drop] at *
              rcases l3 with l3 | l3
              · subst l3
                simp only [List.length_nil]
                omega
              · simp only [Bool.false_eq_true, if_false] at l3
                omega
            · intro p hp
              rcases List.mem_append.mp hp with hp | hp
              · rcases List.mem_append.mp hp with hp | hp
                · exact hm1 p hp
                · obtain ⟨⟨a, ha, hak⟩, hx⟩ := m2 p hp
                  exact ⟨⟨a, List.mem_append_left _ (List.mem_cons_of_mem _ ha), hak⟩,
                    ⟨y, List.mem_append_right _ hymem, hx.symm⟩⟩
              · have hsub : ∀ a, a ∈ (x2 :: xt2).drop q2.1 ++ (y :: yt) →
                    a ∈ (x :: x2 :: xt2) ++ ys := by
                  intro a ha
                  rcases List.mem_append.mp ha with ha | ha
                  · exact List.mem_append_left _
                      (List.mem_cons_of_mem _ (List.mem_of_mem_drop ha))
                  · exact List.mem_append_right _ (List.mem_of_mem_drop (heq ▸ ha))
                obtain ⟨⟨a, ha, hak⟩, ⟨b, hb, hbk⟩⟩ := m3 p hp
                exact ⟨⟨a, hsub a ha, hak⟩, ⟨b, hsub b hb, hbk⟩⟩

theorem merge_cost (r : List Item) (s : Rec) :
    ∃ r1 s2 tr, merge LinSearch r s = .ok (r1, s2) ∧ Tracks s s2 tr ∧
      tr.length ≤ r.length - 1 ∧
      (∀ p ∈ tr, (∃ a ∈ r, a.key = p.1) ∧ (∃ b ∈ r, b.key = p.2)) := by
  obtain ⟨res, s1, tr, e, t, l, m⟩ := merge.loop_cost r.length (r.take (r.length / 2))
    (r.drop (r.length / 2)) true [] { s with record_compares := true, compare_pairs := [] }
    (by simp only [List.length_take]; omega) (fun h => absurd h (by simp))
  have t0 : Tracks s { s with record_compares := true, compare_pairs := [] } [] := by
    simp [Tracks, tally]
  have t2 : Tracks s1 { s1 with record_compares := false } [] := by
    simp [Tracks, tally]
  refine ⟨_, _, tr, merge_of_loop LinSearch r s res s1 e, ?_, ?_, ?_⟩
  · simpa using (t0.trans t).trans t2
  · rcases l with l | l
    · subst l; simp
    · simp only [List.length_take, List.length_drop, if_true] at l
      omega
  · simpa only [List.take_append_drop] using m

/-- The comparisons of `mergesort` with `LinSearch` on a range of length
`2 ^ k`: at most `k * 2 ^ k`, all between elements of the range. -/
theorem mergesort_cost (k fuel : Nat) (r : List Item) (s : Rec) (hlen : r.length = 2 ^ k)
    (hfuel : k < fuel) :
    ∃ r1 s1 tr, mergesort LinSearch fuel r s = .ok (r1, s1) ∧ r1.Perm r ∧ NonDecreasing r1 ∧
      Tracks s s1 tr ∧ tr.length ≤ k * 2 ^ k ∧
      (∀ p ∈ tr, (∃ a ∈ r, a.key = p.1) ∧ (∃ b ∈ r, b.key = p.2)) := by
  induction k generalizing fuel r s with
  | zero =>
    obtain ⟨n, rfl⟩ : ∃ n, fuel = n + 1 := ⟨fuel - 1, by omega⟩
    have h1 : r.length = 1 := by simpa using hlen
    rw [mergesort_succ, if_pos h1]
    obtain ⟨a, rfl⟩ := List.length_eq_one.mp h1
    exact ⟨[a], s, [], rfl, List.Perm.refl _, List.pairwise_singleton _ _, Tracks.refl s,
      by simp, by simp⟩
  | succ k ih =>
    obtain ⟨n, rfl⟩ : ∃ n, fuel = n + 1 := ⟨fuel - 1, by omega⟩
    have hpos : 1 ≤ 2 ^ k := Nat.one_le_two_pow
    have h2 : r.length = 2 * 2 ^ k := by rw [hlen, pow_succ]; ring
    have hhalf : r.length / 2 = 2 ^ k := by omega
    rw [mergesort_succ, if_neg (by omega), if_neg (by omega), hhalf]
    obtain ⟨l, s1, tr1, e1, p1, n1, t1, l1, m1⟩ := ih n (r.take (2 ^ k)) s
      (by rw [List.length_take]; omega) (by omega)
    obtain ⟨u, s2, tr2, e2, p2, n2, t2, l2, m2⟩ := ih n (r.drop (2 ^ k)) s1
      (by rw [List.length_drop]; omega) (by omega)
    rw [e1]; simp only []
    rw [e2]; simp only []
    have hll : l.length = 2 ^ k := by rw [List.Perm.length_eq p1, List.length_take]; omega
    have hul : u.length = 2 ^ k := by rw [List.Perm.length_eq p2, List.length_drop]; omega
    have hm : (l ++ u).length / 2 = l.length := by
      rw [List.length_append]; omega
    obtain ⟨_, _, r1, s3, _, e3, _, _, _, _, _, n3, p3⟩ :=
      merge_of_sound_sorted LinSearch LinSearch_sound (l ++ u) s2
        (by rw [hm, List.take_left]; exact n1) (by rw [hm, List.drop_left]; exact n2)
    obtain ⟨r2, s4, tr3, e4, t3, l3, m3⟩ := merge_cost (l ++ u) s2
    rw [e3] at e4
    simp only [Except.ok.injEq, Prod.mk.injEq] at e4
    obtain ⟨rfl, rfl⟩ := e4
    have hlu : (l ++ u).Perm r := by
      have := p1.append p2
      rwa [List.take_append_drop] at this
    refine ⟨r1, s3, tr1 ++ tr2 ++ tr3, e3, p3.trans hlu, n3, (t1.trans t2).trans t3, ?_, ?_⟩
    · have hp : (k + 1) * 2 ^ (k + 1) = 2 * (k * 2 ^ k) + 2 * 2 ^ k := by ring
      simp only [List.length_append] at l3 ⊢
      omega
    · intro p hp
      rcases List.mem_append.mp hp with hp | hp
      · rcases List.mem_append.mp hp with hp | hp
        · obtain ⟨⟨a, ha, hak⟩, ⟨b, hb, hbk⟩⟩ := m1 p hp
          exact ⟨⟨a, List.mem_of_mem_take ha, hak⟩, ⟨b, List.mem_of_mem_take hb, hbk⟩⟩
        · obtain ⟨⟨a, ha, hak⟩, ⟨b, hb, hbk⟩⟩ := m2 p hp
          exact ⟨⟨a, List.mem_of_mem_drop ha, hak⟩, ⟨b, List.mem_of_mem_drop hb, hbk⟩⟩
      · obtain ⟨⟨a, ha, hak⟩, ⟨b, hb, hbk⟩⟩ := m3 p hp
        exact ⟨⟨a, hlu.mem_iff.mp ha, hak⟩, ⟨b, hlu.mem_iff.mp hb, hbk⟩⟩

/-- C10: for `n = 2 ^ k` (for `k = 4` this is `n = 16`) and a range whose keys
are a permutation of `[0, n)`, `mergesort` with `LinSearch` ends normally with
the keys `0, 1, ..., n - 1` and performs at most `n * log2 n` order
comparisons; started with counting on and `n` zero counts, the recorded counts
sum to twice the number of comparisons, hence to at most `2 * n * log2 n`. -/
theorem mergesort_lin_comparisons (k fuel : Nat) (r : List Item) (s : Rec)
    (hperm : (r.map Item.key).Perm (List.range (2 ^ k))) (hfuel : k < fuel)
    (hon : s.count_compares = true) (hz : s.counts = List.replicate (2 ^ k) 0) :
    ∃ r1 s1, mergesort LinSearch fuel r s = .ok (r1, s1) ∧
      r1.map Item.key = List.range (2 ^ k) ∧
      comparisons s s1 ≤ 2 ^ k * Nat.log 2 (2 ^ k) ∧
      s1.counts.sum = 2 * comparisons s s1 ∧
      s1.counts.sum ≤ 2 * 2 ^ k * Nat.log 2 (2 ^ k) := by
  have hlen : r.length = 2 ^ k := by
    have := hperm.length_eq
    simpa using this
  obtain ⟨r1, s1, tr, e, p, nd, t, l, m⟩ := mergesort_cost k fuel r s hlen hfuel
  have hk := keys_eq_range_of_sorted_perm (2 ^ k) r1 nd ((p.map Item.key).trans hperm)
  have hlog : Nat.log 2 (2 ^ k) = k := Nat.log_pow (by decide) k
  have hcmp : comparisons s s1 = tr.length := t.comparisons
  have hin : ∀ q ∈ tr, q.1 < s.counts.length ∧ q.2 < s.counts.length := by
    intro q hq
    obtain ⟨⟨a, ha, hak⟩, ⟨b, hb, hbk⟩⟩ := m q hq
    have hka : a.key ∈ List.range (2 ^ k) := hperm.mem_iff.mp (List.mem_map_of_mem _ ha)
    have hkb : b.key ∈ List.range (2 ^ k) := hperm.mem_iff.mp (List.mem_map_of_mem _ hb)
    rw [hz, List.length_replicate, ← hak, ← hbk]
    exact ⟨List.mem_range.mp hka, List.mem_range.mp hkb⟩
  have hsum : s1.counts.sum = 2 * tr.length := by
    rw [t.2.2, if_pos hon, tally_sum _ _ hin, hz]
    simp
  have hmul : 2 ^ k * k = k * 2 ^ k := Nat.mul_comm _ _
  refine ⟨r1, s1, e, hk, ?_, ?_, ?_⟩
  · rw [hlog, hcmp, hmul]; exact l
  · rw [hsum, hcmp]
  · rw [hsum, hlog, Nat.mul_assoc, hmul]; omega

theorem mergesort_lin_comparisons_witness :
    ((items [5, 12, 0, 9, 3, 15, 7, 1, 14, 2, 10, 6, 13, 4, 11, 8]).map Item.key).Perm
        (List.range (2 ^ 4)) ∧ 4 < 5 ∧
      (Rec.fresh 16).count_compares = true ∧
      (Rec.fresh 16).counts = List.replicate (2 ^ 4) 0 ∧
      ∃ r1 s1,
        mergesort LinSearch 5 (items [5, 12, 0, 9, 3, 15, 7, 1, 14, 2, 10, 6, 13, 4, 11, 8])
          (Rec.fresh 16) = .ok (r1, s1) ∧
        r1.map Item.key = List.range (2 ^ 4) ∧
        comparisons (Rec.fresh 16) s1 ≤ 2 ^ 4 * Nat.log 2 (2 ^ 4) ∧
        s1.counts.sum = 2 * comparisons (Rec.fresh 16) s1 ∧
        s1.counts.sum ≤ 2 * 2 ^ 4 * Nat.log 2 (2 ^ 4) :=
  ⟨by decide, by decide, rfl, rfl,
    mergesort_lin_comparisons 4 5 (items [5, 12, 0, 9, 3, 15, 7, 1, 14, 2, 10, 6, 13, 4, 11, 8])
      (Rec.fresh 16) (by decide) (by decide) rfl rfl⟩

/-! ## No pair is compared twice within one merge -/

theorem normalize_eq_iff (a b c d : Nat) :
    normalize (a, b) = normalize (c, d) ↔ (a = c ∧ b = d) ∨ (a = d ∧ b = c) := by
  simp only [normalize, Prod.mk.injEq]
  omega

theorem probes_mem (r : List Item) (x : Item) (idxs : List Nat)
    (hlt : ∀ t ∈ idxs, t < r.length) :
    ∀ p ∈ idxs.map (probe r x), ∃ e ∈ r, p = (e.key, x.key) := by
  intro p hp
  obtain ⟨t, ht, rfl⟩ := List.mem_map.mp hp
  have hl := hlt t ht
  refine ⟨r[t], List.getElem_mem hl, ?_⟩
  simp only [probe, List.getD_eq_getElem _ _ hl]

theorem probes_normalized_nodup (r : List Item) (x : Item) (idxs : List Nat)
    (hk : (r.map Item.key).Nodup) (hn : idxs.Nodup) (hlt : ∀ t ∈ idxs, t < r.length) :
    ((idxs.map (probe r x)).map normalize).Nodup := by
  rw [List.map_map]
  refine List.Nodup.map_on ?_ hn
  intro i hi j hj heq
  have hil := hlt i hi
  have hjl := hlt j hj
  simp only [Function.comp, probe, List.getD_eq_getElem _ _ hil,
    List.getD_eq_getElem _ _ hjl] at heq
  have hkey : r[i].key = r[j].key := by
    rcases (normalize_eq_iff _ _ _ _).mp heq with h | h
    · exact h.1
    · exact h.1.trans h.2
  have hi2 : i < (r.map Item.key).length := by simpa using hil
  have hj2 : j < (r.map Item.key).length := by simpa using hjl
  have : (r.map Item.key)[i] = (r.map Item.key)[j] := by
    simpa using hkey
  exact (List.Nodup.getElem_inj_iff hk).mp this

/-- The comparisons of the loop of `merge` on runs with pairwise different
keys: the loop ends normally, no unordered pair occurs twice among its
comparisons, and each of them is between an element still in the left run and
an element of the right run that the next search may visit. -/
theorem merge.loop_pairs (f : Search) (hf : Search.Sound f) (fuel : Nat) (xs ys : List Item)
    (first : Bool) (result : List Item) (s : Rec) (hfuel : xs.length ≤ fuel)
    (hk : ((xs ++ ys).map Item.key).Nodup) :
    ∃ res s1 tr, merge.loop f fuel xs ys first result s = .ok (res, s1) ∧ Tracks s s1 tr ∧
      (tr.map normalize).Nodup ∧
      ∀ p ∈ tr, ∃ a ∈ xs, ∃ b ∈ ys.drop (if first then 0 else 1),
        normalize p = normalize (a.key, b.key) := by
  induction fuel generalizing xs ys first result s with
  | zero =>
    have : xs = [] := List.length_eq_zero.mp (by omega)
    subst this
    exact ⟨result, s, [], merge.loop_nil .., Tracks.refl s, List.nodup_nil, by simp⟩
  | succ fuel ih =>
    cases xs with
    | nil => exact ⟨result, s, [], merge.loop_nil .., Tracks.refl s, List.nodup_nil, by simp⟩
    | cons x xt =>
      by_cases hy : ys = []
      · subst hy
        rw [merge.loop_right_empty]
        exact ⟨_, s, [], rfl, Tracks.refl s, List.nodup_nil, by simp⟩
      · obtain ⟨d, hd⟩ : ∃ d, d = if first then 0 else 1 := ⟨_, rfl⟩
        obtain ⟨q, hq⟩ : ∃ q, q = f (ys.drop d) x s := ⟨_, rfl⟩
        rw [merge.loop_step f fuel x xt ys first result s hy d hd q hq, ← hd]
        rw [List.map_append, List.nodup_append] at hk
        obtain ⟨hkx, hky, hkd⟩ := hk
        have K1 : ∀ a ∈ x :: xt, ∀ b ∈ ys, a.key ≠ b.key := by
          intro a ha b hb heq
          exact hkd (List.mem_map_of_mem _ ha) (heq ▸ List.mem_map_of_mem _ hb)
        have K2 : ∀ e ∈ xt, x.key ≠ e.key := by
          intro e he heq
          rw [List.map_cons, List.nodup_cons] at hkx
          exact hkx.1 (heq ▸ List.mem_map_of_mem _ he)
        have hkyd : ((ys.drop d).map Item.key).Nodup :=
          List.Nodup.sublist ((List.drop_sublist d ys).map _) hky
        obtain ⟨idxs1, n1, b1, t1⟩ := hf.probes (ys.drop d) x s
        rw [← hq] at t1
        have N1 := probes_normalized_nodup (ys.drop d) x idxs1 hkyd n1 b1
        have M1 := probes_mem (ys.drop d) x idxs1 b1
        have hm1 : ∀ p ∈ idxs1.map (probe (ys.drop d) x), ∃ a ∈ x :: xt, ∃ b ∈ ys.drop d,
            normalize p = normalize (a.key, b.key) := by
          intro p hp
          obtain ⟨e, he, rfl⟩ := M1 p hp
          exact ⟨x, List.mem_cons_self _ _, e, he,
            (normalize_eq_iff _ _ _ _).mpr (Or.inr ⟨rfl, rfl⟩)⟩
        split
        · exact ⟨_, q.2, _, rfl, t1, N1, hm1⟩
        · rename_i y yt heq
          have hyd : y ∈ ys.drop d := by
            have : y ∈ (ys.drop d).drop q.1 := by
              rw [List.drop_drop, heq]; exact List.mem_cons_self _ _
            exact List.mem_of_mem_drop this
          have hysub : ∀ b ∈ yt, b ∈ ys.drop d := by
            intro b hb
            have : b ∈ (ys.drop d).drop q.1 := by
              rw [List.drop_drop, heq]; exact List.mem_cons_of_mem _ hb
            exact List.mem_of_mem_drop this
          have hky1 : ((y :: yt).map Item.key).Nodup :=
            heq ▸ List.Nodup.sublist ((List.drop_sublist _ ys).map _) hky
          have K3 : ∀ b ∈ yt, y.key ≠ b.key := by
            intro b hb heq2
            rw [List.map_cons, List.nodup_cons] at hky1
            exact hky1.1 (heq2 ▸ List.mem_map_of_mem _ hb)
          cases xt with
          | nil => exact ⟨_, q.2, _, rfl, t1, N1, hm1⟩
          | cons x2 xt2 =>
            simp only []
            obtain ⟨q2, hq2⟩ : ∃ q2, q2 = f (x2 :: xt2) y q.2 := ⟨_, rfl⟩
            rw [← hq2]
            have hkxt : ((x2 :: xt2).map Item.key).Nodup := by
              rw [List.map_cons, List.nodup_cons] at hkx
              exact hkx.2
            obtain ⟨idxs2, n2, b2, t2⟩ := hf.probes (x2 :: xt2) y q.2
            rw [← hq2] at t2
            have N2 := probes_normalized_nodup (x2 :: xt2) y idxs2 hkxt n2 b2
            have M2 := probes_mem (x2 :: xt2) y idxs2 b2
            obtain ⟨res, s1, tr3, e3, t3, N3, M3⟩ := ih ((x2 :: xt2).drop q2.1) (y :: yt) false
              (result ++ ys.take (d + q.1) ++ x :: (x2 :: xt2).take q2.1) q2.2
              (by
                simp only [List.length_drop, List.length_cons] at hfuel ⊢
                omega)
              (by
                rw [List.map_append, List.nodup_append]
                refine ⟨List.Nodup.sublist ((List.drop_sublist _ _).map _) hkxt, hky1, ?_⟩
                intro c hc1 hc2
                obtain ⟨a, ha, rfl⟩ := List.mem_map.mp hc1
                obtain ⟨b, hb, hbk⟩ := List.mem_map.mp hc2
                exact K1 a (List.mem_cons_of_mem _ (List.mem_of_mem_drop ha)) b
                  (List.mem_of_mem_drop (heq ▸ hb)) hbk.symm)
            simp only [Bool.false_eq_true, if_false, List.drop_succ_cons, List.drop_zero] at M3
            refine ⟨res, s1, _, e3, (t1.trans t2).trans t3, ?_, ?_⟩
            · rw [List.map_append, List.map_append, List.nodup_append, List.nodup_append]
              refine ⟨⟨N1, N2, ?_⟩, N3, ?_⟩
              · intro c hc1 hc2
                obtain ⟨p1, hp1, rfl⟩ := List.mem_map.mp hc1
                obtain ⟨p2, hp2, hpe⟩ := List.mem_map.mp hc2
                obtain ⟨e, he, rfl⟩ := M1 p1 hp1
                obtain ⟨e2, he2, rfl⟩ := M2 p2 hp2
                rcases (normalize_eq_iff _ _ _ _).mp hpe with h | h
                · exact K1 x (List.mem_cons_self _ _) y (List.mem_of_mem_drop hyd) h.2.symm
                · exact K2 e2 he2 h.1.symm
              · intro c hc1 hc2
                obtain ⟨p3, hp3, hpe⟩ := List.mem_map.mp hc2
                obtain ⟨a, ha, b, hb, hab⟩ := M3 p3 hp3
                have ha2 : a ∈ x2 :: xt2 := List.mem_of_mem_drop ha
                rw [hab] at hpe
                rcases List.mem_append.mp hc1 with hc1 | hc1
                · obtain ⟨p1, hp1, rfl⟩ := List.mem_map.mp hc1
                  obtain ⟨e, he, rfl⟩ := M1 p1 hp1
                  rcases (normalize_eq_iff _ _ _ _).mp hpe with h | h
                  · exact K1 x (List.mem_cons_self _ _) b
                      (List.mem_of_mem_drop (hysub b hb)) h.2.symm
                  · exact K2 a ha2 h.1.symm
                · obtain ⟨p2, hp2, rfl⟩ := List.mem_map.mp hc1
                  obtain ⟨e2, he2, rfl⟩ := M2 p2 hp2
                  rcases (normalize_eq_iff _ _ _ _).mp hpe with h | h
                  · exact K3 b hb h.2.symm
                  · exact K1 a (List.mem_cons_of_mem _ ha2) y
                      (List.mem_of_mem_drop hyd) h.1
            · intro p hp
              rcases List.mem_append.mp hp with hp | hp
              · rcases List.mem_append.mp hp with hp | hp
                · exact hm1 p hp
                · obtain ⟨e2, he2, rfl⟩ := M2 p hp
                  exact ⟨e2, List.mem_cons_of_mem _ he2, y, hyd, rfl⟩
              · obtain ⟨a, ha, b, hb, hab⟩ := M3 p hp
                exact ⟨a, List.mem_cons_of_mem _ (List.mem_of_mem_drop ha), b, hysub b hb, hab⟩

theorem merge_pairs_of_sound (f : Search) (hf : Search.Sound f) (r : List Item) (s : Rec)
    (hk : (r.map Item.key).Nodup) :
    ∃ r1 s2 tr, merge f r s = .ok (r1, s2) ∧ Tracks s s2 tr ∧ (tr.map normalize).Nodup := by
  obtain ⟨res, s1, tr, e, t, n, _⟩ := merge.loop_pairs f hf r.length (r.take (r.length / 2))
    (r.drop (r.length / 2)) true [] { s with record_compares := true, compare_pairs := [] }
    (by simp only [List.length_take]; omega) (by rw [List.take_append_drop]; exact hk)
  have t0 : Tracks s { s with record_compares := true, compare_pairs := [] } [] := by
    simp [Tracks, tally]
  have t2 : Tracks s1 { s1 with record_compares := false } [] := by
    simp [Tracks, tally]
  refine ⟨_, _, tr, merge_of_loop f r s res s1 e, ?_, n⟩
  simpa using (t0.trans t).trans t2

/-- C6: within one call of `merge` on a range with pairwise different keys
(its halves sorted or not), with `LinSearch` or with `ExpSearch`, no unordered
pair of elements is compared twice: the call ends normally, and the pairs
`(min key, max key)` of all order comparisons made during the call, those
inside the search strategy and its binary search included, are pairwise
different. -/
theorem merge_no_pair_twice (f : Search) (hf : f = LinSearch ∨ f = ExpSearch) (r : List Item)
    (s : Rec) (hk : (r.map Item.key).Nodup) :
    ∃ r1 s2, merge f r s = .ok (r1, s2) ∧ ((newCalls s s2).map normalize).Nodup := by
  have hs : Search.Sound f := by
    rcases hf with rfl | rfl
    · exact LinSearch_sound
    · exact ExpSearch_sound
  obtain ⟨r1, s2, tr, e, t, n⟩ := merge_pairs_of_sound f hs r s hk
  exact ⟨r1, s2, e, by rw [t.newCalls]; exact n⟩

theorem merge_no_pair_twice_witness :
    (ExpSearch = LinSearch ∨ ExpSearch = ExpSearch) ∧
      ((items [1, 4, 6, 8, 0, 2, 3, 9, 11]).map Item.key).Nodup ∧
      ∃ r1 s2, merge ExpSearch (items [1, 4, 6, 8, 0, 2, 3, 9, 11]) (Rec.fresh 12) = .ok (r1, s2) ∧
        ((newCalls (Rec.fresh 12) s2).map normalize).Nodup :=
  ⟨Or.inr rfl, by decide,
    merge_no_pair_twice ExpSearch (Or.inr rfl) (items [1, 4, 6, 8, 0, 2, 3, 9, 11]) (Rec.fresh 12)
      (by decide)⟩

/-! ## The iteration bounds are never what stops a loop -/

/-- The loop of `std::lower_bound` does the same with every bound on the
number of iterations that is at least `len`. -/
theorem lower_bound.bisect_fuel (r : List Item) (x : Item) (fuel1 fuel2 first len : Nat) (s : Rec)
    (h1 : len ≤ fuel1) (h2 : len ≤ fuel2) :
    lower_bound.loop r x fuel1 first len s = lower_bound.loop r x fuel2 first len s := by
  induction fuel1 generalizing fuel2 first len s with
  | zero =>
    have : len = 0 := by omega
    subst this
    cases fuel2 with
    | zero => rfl
    | succ n => rw [lower_bound.bisect_succ]; simp [lower_bound.loop]
  | succ n ih =>
    cases fuel2 with
    | zero =>
      have : len = 0 := by omega
      subst this
      rw [lower_bound.bisect_succ]; simp [lower_bound.loop]
    | succ m =>
      rw [lower_bound.bisect_succ, lower_bound.bisect_succ]
      split
      · split
        · exact ih m _ _ _ (by omega) (by omega)
        · exact ih m _ _ _ (by omega) (by omega)
      · rfl

/-- The doubling loop of `ExpSearch` does the same with every bound on the
number of iterations that is at least `size - i`. -/
theorem ExpSearch.gallop_fuel (r : List Item) (x : Item) (fuel1 fuel2 i last_i step : Nat)
    (s : Rec) (hstep : 0 < step) (h1 : r.length ≤ i + fuel1) (h2 : r.length ≤ i + fuel2) :
    ExpSearch.loop r x fuel1 i last_i step s = ExpSearch.loop r x fuel2 i last_i step s := by
  induction fuel1 generalizing fuel2 i last_i step s with
  | zero =>
    cases fuel2 with
    | zero => rfl
    | succ n => rw [ExpSearch.gallop_succ, if_neg (by omega)]; rfl
  | succ n ih =>
    cases fuel2 with
    | zero => rw [ExpSearch.gallop_succ, if_neg (by omega)]; rfl
    | succ m =>
      rw [ExpSearch.gallop_succ, ExpSearch.gallop_succ]
      split
      · split
        · exact ih m _ _ _ _ (by omega) (by omega) (by omega)
        · rfl
      · rfl

/-- The loop of `merge` does the same with every bound on the number of
iterations that is at least the length of the left run. -/
theorem merge.loop_fuel (f : Search) (fuel1 fuel2 : Nat) (xs ys : List Item) (first : Bool)
    (result : List Item) (s : Rec) (h1 : xs.length ≤ fuel1) (h2 : xs.length ≤ fuel2) :
    merge.loop f fuel1 xs ys first result s = merge.loop f fuel2 xs ys first result s := by
  induction fuel1 generalizing fuel2 xs ys first result s with
  | zero =>
    have : xs = [] := List.length_eq_zero.mp (by omega)
    subst this
    rw [merge.loop_nil, merge.loop_nil]
  | succ n ih =>
    cases xs with
    | nil => rw [merge.loop_nil, merge.loop_nil]
    | cons x xt =>
      obtain ⟨m, rfl⟩ : ∃ m, fuel2 = m + 1 := ⟨fuel2 - 1, by simp at h2; omega⟩
      by_cases hy : ys = []
      · subst hy
        rw [merge.loop_right_empty, merge.loop_right_empty]
      · rw [merge.loop_step f n x xt ys first result s hy _ rfl _ rfl,
          merge.loop_step f m x xt ys first result s hy _ rfl _ rfl]
        split
        · rfl
        · cases xt with
          | nil => rfl
          | cons x2 xt2 =>
            simp only []
            apply ih
            · simp only [List.length_drop, List.length_cons] at h1 ⊢; omega
            · simp only [List.length_drop, List.length_cons] at h2 ⊢; omega

/-- The function `merge` never stops for lack of iterations (each iteration
shortens the left run) and, `check_dups` being `false`, never calls
`std::terminate`: it ends normally on every range. -/
theorem merge_ok (f : Search) (r : List Item) (s : Rec) :
    ∃ r1 s1, merge f r s = .ok (r1, s1) := by
  have h : ∀ (fuel : Nat) (xs ys : List Item) (first : Bool) (result : List Item) (s : Rec),
      xs.length ≤ fuel → ∃ res s1, merge.loop f fuel xs ys first result s = .ok (res, s1) := by
    intro fuel
    induction fuel with
    | zero =>
      intro xs ys first result s hx
      have : xs = [] := List.length_eq_zero.mp (by omega)
      subst this
      exact ⟨_, _, merge.loop_nil ..⟩
    | succ n ih =>
      intro xs ys first result s hx
      cases xs with
      | nil => exact ⟨_, _, merge.loop_nil ..⟩
      | cons x xt =>
        by_cases hy : ys = []
        · subst hy
          exact ⟨_, _, merge.loop_right_empty ..⟩
        · rw [merge.loop_step f n x xt ys first result s hy _ rfl _ rfl]
          split
          · exact ⟨_, _, rfl⟩
          · cases xt with
            | nil => exact ⟨_, _, rfl⟩
            | cons x2 xt2 =>
              simp only []
              apply ih
              simp only [List.length_drop, List.length_cons] at hx ⊢; omega
  obtain ⟨res, s1, e⟩ := h r.length (r.take (r.length / 2)) (r.drop (r.length / 2)) true []
    { s with record_compares := true, compare_pairs := [] }
    (by simp only [List.length_take]; omega)
  exact ⟨_, _, merge_of_loop f r s res s1 e⟩

/-! ## The base case of mergesort and single-element searches -/

/-- C12: on a range of length 1 `mergesort`, with any search strategy and any
positive recursion bound, ends normally at once: the range is unchanged, no
order comparison is made, and the recorder (`counts`, `compare_pairs` and
all the rest) is exactly as it was. -/
theorem mergesort_single (f : Search) (fuel : Nat) (r : List Item) (s : Rec)
    (h : r.length = 1) :
    ∃ r1 s1, mergesort f (fuel + 1) r s = .ok (r1, s1) ∧ r1 = r ∧ comparisons s s1 = 0 ∧
      s1.counts = s.counts ∧ s1.compare_pairs = s.compare_pairs ∧ s1 = s := by
  refine ⟨r, s, ?_, rfl, ?_, rfl, rfl, rfl⟩
  · rw [mergesort_succ, if_pos h]
  · simp [comparisons]

theorem mergesort_single_witness :
    (items [7]).length = 1 ∧
      ∃ r1 s1, mergesort ExpSearch (0 + 1) (items [7]) (Rec.fresh 8) = .ok (r1, s1) ∧
        r1 = items [7] ∧ comparisons (Rec.fresh 8) s1 = 0 ∧
        s1.counts = (Rec.fresh 8).counts ∧ s1.compare_pairs = (Rec.fresh 8).compare_pairs ∧
        s1 = Rec.fresh 8 :=
  ⟨rfl, mergesort_single ExpSearch 0 (items [7]) (Rec.fresh 8) rfl⟩

/-- C13: on a single-element range `ExpSearch` returns the range start (offset
0) when the probe is less than the element, the range start, which is the
position of the element, when the probe equals it, and the range end (offset 1)
when the probe is greater. -/
theorem ExpSearch_single (e x : Item) (s : Rec) :
    (x.key < e.key → (ExpSearch [e] x s).1 = 0) ∧
      (x.key = e.key → (ExpSearch [e] x s).1 = 0) ∧
      (e.key < x.key → (ExpSearch [e] x s).1 = 1) := by
  obtain ⟨_, hle, _, _, _, _, hlb⟩ := ExpSearch_run [e] x s
  have h := hlb (List.pairwise_singleton _ e)
  have hle1 : (ExpSearch [e] x s).1 ≤ 1 := by simpa using hle
  have hzero : ¬ e.key < x.key → (ExpSearch [e] x s).1 = 0 := by
    intro hn
    by_contra hne
    exact hn (h.2.1 0 e (by omega) rfl)
  refine ⟨fun hlt => hzero (by omega), fun heq => hzero (by omega), ?_⟩
  intro hgt
  by_contra hne
  exact h.2.2 0 e (by omega) rfl hgt

theorem ExpSearch_single_witness :
    (3 < 5 → (ExpSearch [Item.mk 5] (Item.mk 3) (Rec.fresh 8)).1 = 0) ∧
      (5 = 5 → (ExpSearch [Item.mk 5] (Item.mk 5) (Rec.fresh 8)).1 = 0) ∧
      (5 < 6 → (ExpSearch [Item.mk 5] (Item.mk 6) (Rec.fresh 8)).1 = 1) :=
  ⟨(ExpSearch_single (Item.mk 5) (Item.mk 3) (Rec.fresh 8)).1,
    (ExpSearch_single (Item.mk 5) (Item.mk 5) (Rec.fresh 8)).2.1,
    (ExpSearch_single (Item.mk 5) (Item.mk 6) (Rec.fresh 8)).2.2⟩

/-! ## check_sorted -/

theorem is_sorted_cons_cons (a b : Item) (t : List Item) (s : Rec) :
    is_sorted (a :: b :: t) s =
      if b.key < a.key then (false, (Item.lt b a s).2)
      else is_sorted (b :: t) (Item.lt b a s).2 := by
  simp only [is_sorted, Item.lt_fst, decide_eq_true_eq]

/-- The function `std::is_sorted` changes the recorder by comparisons only, and
its verdict is that no element is smaller than its predecessor. -/
theorem is_sorted_run (r : List Item) (s : Rec) :
    (∃ tr, Tracks s (is_sorted r s).2 tr) ∧
      ((is_sorted r s).1 = true ↔ r.Chain' (fun a b => ¬ b.key < a.key)) := by
  induction r generalizing s with
  | nil => exact ⟨⟨[], Tracks.refl s⟩, by simp [is_sorted]⟩
  | cons a r ih =>
    cases r with
    | nil => exact ⟨⟨[], Tracks.refl s⟩, by simp [is_sorted]⟩
    | cons b t =>
      rw [is_sorted_cons_cons]
      by_cases hlt : b.key < a.key
      · rw [if_pos hlt]
        refine ⟨⟨_, Item.lt_tracks b a s⟩, ?_⟩
        simp [List.chain'_cons, hlt]
      · rw [if_neg hlt]
        obtain ⟨⟨tr, ht⟩, hv⟩ := ih (Item.lt b a s).2
        refine ⟨⟨_, (Item.lt_tracks b a s).trans ht⟩, ?_⟩
        rw [hv, List.chain'_cons]
        simp [hlt]

theorem chain_iff_nonDecreasing (r : List Item) :
    r.Chain' (fun a b => ¬ b.key < a.key) ↔ NonDecreasing r := by
  have e : (fun a b : Item => ¬ b.key < a.key) = (fun a b : Item => a.key ≤ b.key) := by
    funext a b
    simp
  rw [e]
  haveI : IsTrans Item (fun a b => a.key ≤ b.key) := ⟨fun _ _ _ h1 h2 => Nat.le_trans h1 h2⟩
  exact List.chain'_iff_pairwise

/-- C14: for every range and every recorder state, `check_sorted` compares
with counting disabled: `counts` is left exactly as it was, whatever the
counting switch was on entry, and the result is true exactly when no element of
the range is smaller than its predecessor, that is when the range is
non-decreasing. -/
theorem check_sorted_frame (r : List Item) (s : Rec) :
    (check_sorted r s).2.counts = s.counts ∧
      ((check_sorted r s).1 = true ↔ r.Chain' (fun a b => ¬ b.key < a.key)) ∧
      ((check_sorted r s).1 = true ↔ NonDecreasing r) := by
  obtain ⟨⟨tr, ht⟩, hv⟩ := is_sorted_run r { s with count_compares := false }
  have hc : (check_sorted r s).2.counts = s.counts := by
    have := ht.2.2
    simpa [check_sorted] using this
  have h1 : (check_sorted r s).1 = (is_sorted r { s with count_compares := false }).1 := rfl
  refine ⟨hc, ?_, ?_⟩
  · rw [h1]; exact hv
  · rw [h1, hv]; exact chain_iff_nonDecreasing r

/-- C20: `check_sorted` does not restore the counting switch: for every range
and every value of `count_compares` on entry, `false` as at the call in
`benchmark` included, `count_compares` is `true` when `check_sorted` returns. -/
theorem check_sorted_switch (r : List Item) (s : Rec) :
    (check_sorted r s).2.count_compares = true ∧
      (check_sorted r { s with count_compares := false }).2.count_compares = true := by
  exact ⟨rfl, rfl⟩

/-! ## The recursion of mergesort -/

theorem mergesort_ok_of_pow (f : Search) (k fuel : Nat) (r : List Item) (s : Rec)
    (hlen : r.length = 2 ^ k) (hfuel : k < fuel) : ∃ v, mergesort f fuel r s = .ok v := by
  induction k generalizing fuel r s with
  | zero =>
    obtain ⟨n, rfl⟩ : ∃ n, fuel = n + 1 := ⟨fuel - 1, by omega⟩
    have h1 : r.length = 1 := by simpa using hlen
    exact ⟨(r, s), by rw [mergesort_succ, if_pos h1]⟩
  | succ k ih =>
    obtain ⟨n, rfl⟩ : ∃ n, fuel = n + 1 := ⟨fuel - 1, by omega⟩
    have hpos : 1 ≤ 2 ^ k := Nat.one_le_two_pow
    have h2 : r.length = 2 * 2 ^ k := by rw [hlen, pow_succ]; ring
    have hhalf : r.length / 2 = 2 ^ k := by omega
    rw [mergesort_succ, if_neg (by omega), if_neg (by omega), hhalf]
    obtain ⟨⟨l, s1⟩, e1⟩ := ih n (r.take (2 ^ k)) s (by rw [List.length_take]; omega) (by omega)
    obtain ⟨⟨u, s2⟩, e2⟩ := ih n (r.drop (2 ^ k)) s1 (by rw [List.length_drop]; omega) (by omega)
    rw [e1]; simp only []
    rw [e2]; simp only []
    obtain ⟨r1, s3, e3⟩ := merge_ok f (l ++ u) s2
    exact ⟨(r1, s3), e3⟩

/-- With a recursion bound of at most `j`, `mergesort` on a range of length
`2 ^ j * m` runs into the bound on its leftmost path. -/
theorem mergesort_fuel_low (f : Search) (j m fuel : Nat) (r : List Item) (s : Rec)
    (hlen : r.length = 2 ^ j * m) (hm : 0 < m) (hfuel : fuel ≤ j) :
    mergesort f fuel r s = .error Fault.fuel := by
  induction j generalizing fuel r s with
  | zero =>
    have : fuel = 0 := by omega
    subst this
    rfl
  | succ j ih =>
    cases fuel with
    | zero => rfl
    | succ n =>
      have hpos : 0 < 2 ^ j * m := Nat.mul_pos (Nat.two_pow_pos j) hm
      have h2 : r.length = 2 * (2 ^ j * m) := by rw [hlen, pow_succ]; ring
      have hhalf : r.length / 2 = 2 ^ j * m := by omega
      rw [mergesort_succ, if_neg (by omega), if_neg (by omega), hhalf,
        ih n (r.take (2 ^ j * m)) s (by rw [List.length_take]; omega) (by omega)]

/-- With a recursion bound above `j`, `mergesort` on a range of length
`2 ^ j * m`, `m` odd and at least 3, ends in the failing assertion of the
leftmost call at depth `j`. -/
theorem mergesort_assert_odd (f : Search) (j m fuel : Nat) (r : List Item) (s : Rec)
    (hlen : r.length = 2 ^ j * m) (hodd : m % 2 = 1) (hm : 3 ≤ m) (hfuel : j < fuel) :
    mergesort f fuel r s = .error Fault.assertion := by
  induction j generalizing fuel r s with
  | zero =>
    obtain ⟨n, rfl⟩ : ∃ n, fuel = n + 1 := ⟨fuel - 1, by omega⟩
    have h1 : r.length = m := by simpa using hlen
    rw [mergesort_succ, if_neg (by omega), if_pos (by omega)]
  | succ j ih =>
    obtain ⟨n, rfl⟩ : ∃ n, fuel = n + 1 := ⟨fuel - 1, by omega⟩
    have hpos : 0 < 2 ^ j * m := Nat.mul_pos (Nat.two_pow_pos j) (by omega)
    have h2 : r.length = 2 * (2 ^ j * m) := by rw [hlen, pow_succ]; ring
    have hhalf : r.length / 2 = 2 ^ j * m := by omega
    rw [mergesort_succ, if_neg (by omega), if_neg (by omega), hhalf,
      ih n (r.take (2 ^ j * m)) s (by rw [List.length_take]; omega) (by omega)]

/-- Every call reachable from a call on a range of length `2 ^ k * m` is on a
range of length `2 ^ j * m` at depth `k - j`, for some `j ≤ k`, provided a range
of length `m` makes no call (`m` is 1 or odd). -/
theorem mergesort_calls_length (f : Search) (k m : Nat) (hm : m = 1 ∨ m % 2 = 1)
    (c d : mergesort.Call) (hlen : c.2.1.length = 2 ^ k * m)
    (h : Relation.ReflTransGen (mergesort.Calls f) c d) :
    ∃ j, j ≤ k ∧ d.2.1.length = 2 ^ j * m ∧ d.1 + k = c.1 + j := by
  induction h with
  | refl => exact ⟨k, Nat.le_refl _, hlen, rfl⟩
  | tail _ hstep ih =>
    obtain ⟨j, hj, hl, hd⟩ := ih
    have key : ∀ (r : List Item), r.length = 2 ^ j * m → r.length ≠ 1 →
        r.length % 2 = 0 → ∃ i, j = i + 1 ∧ r.length / 2 = 2 ^ i * m ∧
          r.length - r.length / 2 = 2 ^ i * m := by
      intro r hr h1 h2
      cases j with
      | zero =>
        rw [pow_zero, Nat.one_mul] at hr
        rcases hm with hm | hm <;> omega
      | succ i =>
        have : r.length = 2 * (2 ^ i * m) := by rw [hr, pow_succ]; ring
        exact ⟨i, rfl, by omega, by omega⟩
    cases hstep with
    | left fuel r s h1 h2 =>
      obtain ⟨i, rfl, e1, _⟩ := key r hl h1 h2
      refine ⟨i, by omega, ?_, ?_⟩
      · simp only [List.length_take]; omega
      · simp only at hd ⊢; omega
    | right fuel r s l s1 h1 h2 hok =>
      obtain ⟨i, rfl, _, e2⟩ := key r hl h1 h2
      refine ⟨i, by omega, ?_, ?_⟩
      · simp only [List.length_drop]; exact e2
      · simp only at hd ⊢; omega

/-- From a call on a range of length `2 ^ k * m` the leftmost chain of calls
reaches a range of length `m` at depth `k`. -/
theorem mergesort_calls_reach (f : Search) (k m n : Nat) (hm : 0 < m) (r : List Item) (s : Rec)
    (hlen : r.length = 2 ^ k * m) :
    ∃ d : mergesort.Call, Relation.ReflTransGen (mergesort.Calls f) (n + k, r, s) d ∧
      d.1 = n ∧ d.2.1.length = m := by
  induction k generalizing r s with
  | zero => exact ⟨(n, r, s), Relation.ReflTransGen.refl, rfl, by simpa using hlen⟩
  | succ k ih =>
    have hpos : 0 < 2 ^ k * m := Nat.mul_pos (Nat.two_pow_pos k) hm
    have h2 : r.length = 2 * (2 ^ k * m) := by rw [hlen, pow_succ]; ring
    have hhalf : r.length / 2 = 2 ^ k * m := by omega
    obtain ⟨d, hd, e1, e2⟩ := ih (r.take (r.length / 2)) s
      (by rw [List.length_take]; omega)
    exact ⟨d, Relation.ReflTransGen.head
      (mergesort.Calls.left (n + k) r s (by omega) (by omega)) hd, e1, e2⟩

/-- C11: on a range of length `2 ^ k` `mergesort` terminates and its assertion
never fails: with any recursion bound above `k` it ends normally, with a bound
of at most `k` it runs into the bound, every call it makes is at a depth of at
most `k` and on a range whose length is a power of two, hence 1 or even, and a
call at depth `k` (on a range of length 1) is made. -/
theorem mergesort_power_of_two (f : Search) (k : Nat) (r : List Item) (s : Rec)
    (hlen : r.length = 2 ^ k) :
    (∀ fuel, k < fuel → ∃ v, mergesort f fuel r s = .ok v) ∧
      (∀ fuel, fuel ≤ k → mergesort f fuel r s = .error Fault.fuel) ∧
      (∀ fuel (d : mergesort.Call),
        Relation.ReflTransGen (mergesort.Calls f) (fuel, r, s) d →
          ∃ j, j ≤ k ∧ d.2.1.length = 2 ^ j ∧ d.1 + k = fuel + j ∧
            (d.2.1.length = 1 ∨ d.2.1.length % 2 = 0)) ∧
      (∀ n, ∃ d : mergesort.Call,
        Relation.ReflTransGen (mergesort.Calls f) (n + k, r, s) d ∧ d.1 = n ∧
          d.2.1.length = 1) := by
  refine ⟨fun fuel hf => mergesort_ok_of_pow f k fuel r s hlen hf,
    fun fuel hf => mergesort_fuel_low f k 1 fuel r s (by simpa using hlen) (by omega) hf, ?_, ?_⟩
  · intro fuel d hd
    obtain ⟨j, hj, hl, he⟩ := mergesort_calls_length f k 1 (Or.inl rfl) (fuel, r, s) d
      (by simpa using hlen) hd
    rw [Nat.mul_one] at hl
    refine ⟨j, hj, hl, he, ?_⟩
    rw [hl]
    cases j with
    | zero => exact Or.inl rfl
    | succ i => right; rw [pow_succ]; omega
  · intro n
    exact mergesort_calls_reach f k 1 n (by omega) r s (by simpa using hlen)

theorem mergesort_power_of_two_witness :
    (items [3, 1, 0, 2]).length = 2 ^ 2 ∧
      (∀ fuel, 2 < fuel → ∃ v, mergesort LinSearch fuel (items [3, 1, 0, 2]) (Rec.fresh 4) = .ok v) ∧
      (∀ fuel, fuel ≤ 2 →
        mergesort LinSearch fuel (items [3, 1, 0, 2]) (Rec.fresh 4) = .error Fault.fuel) :=
  ⟨rfl, (mergesort_power_of_two LinSearch 2 (items [3, 1, 0, 2]) (Rec.fresh 4) rfl).1,
    (mergesort_power_of_two LinSearch 2 (items [3, 1, 0, 2]) (Rec.fresh 4) rfl).2.1⟩

/-- C19: on a range whose length is not a power of two `mergesort` does not end
normally, whatever the recursion bound.  For a positive length `2 ^ j * m`, `m`
odd and at least 3, it reaches at depth `j` a call on a range of the odd length
`m` and ends in the failing assertion as soon as the bound allows depth `j`.
On the empty range every call calls itself on the same empty range, so every
bound is exhausted and the base case is never reached. -/
theorem mergesort_not_power_of_two (f : Search) (r : List Item) (s : Rec)
    (h : ¬ ∃ k, r.length = 2 ^ k) :
    (∀ fuel v, mergesort f fuel r s ≠ .ok v) ∧
      (0 < r.length → ∃ j m, r.length = 2 ^ j * m ∧ m % 2 = 1 ∧ 3 ≤ m ∧
        (∀ fuel, j < fuel → mergesort f fuel r s = .error Fault.assertion) ∧
        (∀ n, ∃ d : mergesort.Call,
          Relation.ReflTransGen (mergesort.Calls f) (n + j, r, s) d ∧ d.1 = n ∧
            d.2.1.length = m)) ∧
      (r.length = 0 → (∀ fuel, mergesort f fuel r s = .error Fault.fuel) ∧
        ∀ fuel, mergesort.Calls f (fuel + 1, r, s) (fuel, r, s)) := by
  have hempty : r.length = 0 → (∀ fuel, mergesort f fuel r s = .error Fault.fuel) ∧
      ∀ fuel, mergesort.Calls f (fuel + 1, r, s) (fuel, r, s) := by
    intro h0
    have hr : r = [] := List.length_eq_zero.mp h0
    subst hr
    refine ⟨?_, ?_⟩
    · intro fuel
      induction fuel with
      | zero => rfl
      | succ n ih =>
        rw [mergesort_succ, if_neg (by simp), if_neg (by simp)]
        simp only [List.length_nil, Nat.zero_div, List.take_nil]
        rw [ih]
    · intro fuel
      have := mergesort.Calls.left (f := f) fuel [] s (by simp) (by simp)
      simpa using this
  have hpos : 0 < r.length → ∃ j m, r.length = 2 ^ j * m ∧ m % 2 = 1 ∧ 3 ≤ m ∧
      (∀ fuel, j < fuel → mergesort f fuel r s = .error Fault.assertion) ∧
      (∀ fuel, fuel ≤ j → mergesort f fuel r s = .error Fault.fuel) ∧
      (∀ n, ∃ d : mergesort.Call,
        Relation.ReflTransGen (mergesort.Calls f) (n + j, r, s) d ∧ d.1 = n ∧
          d.2.1.length = m) := by
    intro hp
    obtain ⟨j, m, hodd, hjm⟩ := Nat.exists_eq_two_pow_mul_odd (n := r.length) (by omega)
    have hm2 : m % 2 = 1 := Nat.odd_iff.mp hodd
    have hm3 : 3 ≤ m := by
      by_contra hlt
      have : m = 1 := by omega
      subst this
      exact h ⟨j, by simpa using hjm⟩
    exact ⟨j, m, hjm, hm2, hm3,
      fun fuel hf => mergesort_assert_odd f j m fuel r s hjm hm2 hm3 hf,
      fun fuel hf => mergesort_fuel_low f j m fuel r s hjm (by omega) hf,
      fun n => mergesort_calls_reach f j m n (by omega) r s hjm⟩
  refine ⟨?_, ?_, hempty⟩
  · intro fuel v hv
    rcases Nat.eq_zero_or_pos r.length with h0 | hp
    · rw [(hempty h0).1 fuel] at hv
      exact absurd hv (by simp)
    · obtain ⟨j, m, _, _, _, ha, hb, _⟩ := hpos hp
      rcases Nat.lt_or_ge j fuel with hf | hf
      · rw [ha fuel hf] at hv
        exact absurd hv (by simp)
      · rw [hb fuel hf] at hv
        exact absurd hv (by simp)
  · intro hp
    obtain ⟨j, m, h1, h2, h3, ha, _, hc⟩ := hpos hp
    exact ⟨j, m, h1, h2, h3, ha, hc⟩

theorem mergesort_not_power_of_two_witness :
    (¬ ∃ k, (items [4, 1, 5, 0, 3, 2]).length = 2 ^ k) ∧
      (∀ fuel v, mergesort LinSearch fuel (items [4, 1, 5, 0, 3, 2]) (Rec.fresh 6) ≠ .ok v) ∧
      mergesort LinSearch 2 (items [4, 1, 5, 0, 3, 2]) (Rec.fresh 6) = .error Fault.assertion ∧
      mergesort LinSearch 7 ([] : List Item) (Rec.fresh 0) = .error Fault.fuel := by
  have h6 : ¬ ∃ k, (items [4, 1, 5, 0, 3, 2]).length = 2 ^ k := by
    rintro ⟨k, hk⟩
    have hk6 : 2 ^ k = 6 := hk.symm
    have hlt : k < 3 := by
      by_contra hge
      have : 2 ^ 3 ≤ 2 ^ k := Nat.pow_le_pow_right (by decide) (by omega)
      omega
    interval_cases k <;> simp at hk6
  exact ⟨h6, (mergesort_not_power_of_two LinSearch (items [4, 1, 5, 0, 3, 2]) (Rec.fresh 6) h6).1,
    rfl, rfl⟩

/-! ## Pair recording and its self-test -/

theorem pair_le_trans (a b c : Nat × Nat) (h1 : pair_le a b = true) (h2 : pair_le b c = true) :
    pair_le a c = true := by
  simp only [pair_le, Bool.or_eq_true, Bool.and_eq_true, decide_eq_true_eq] at *
  omega

theorem pair_le_total (a b : Nat × Nat) : (pair_le a b || pair_le b a) = true := by
  simp only [pair_le, Bool.or_eq_true, Bool.and_eq_true, decide_eq_true_eq]
  omega

theorem pair_le_antisymm (a b : Nat × Nat) (h1 : pair_le a b = true) (h2 : pair_le b a = true) :
    a = b := by
  simp only [pair_le, Bool.or_eq_true, Bool.and_eq_true, decide_eq_true_eq] at *
  apply Prod.ext <;> omega

theorem std_unique_length_le (l : List (Nat × Nat)) : (std_unique l).length ≤ l.length := by
  induction l with
  | nil => simp [std_unique]
  | cons a l ih =>
    cases l with
    | nil => simp [std_unique]
    | cons b t =>
      simp only [std_unique]
      split
      · simp only [List.length_cons] at ih ⊢; omega
      · simp only [List.length_cons] at ih ⊢; omega

/-- On a vector sorted by the order of `std::sort`, `std::unique` removes
nothing exactly when no value occurs twice. -/
theorem std_unique_length_eq_iff (l : List (Nat × Nat)) (h : l.Pairwise (fun a b => pair_le a b)) :
    (std_unique l).length = l.length ↔ l.Nodup := by
  induction l with
  | nil => simp [std_unique]
  | cons a l ih =>
    cases l with
    | nil => simp [std_unique]
    | cons b t =>
      have htail : (b :: t).Pairwise (fun a b => pair_le a b) := List.Pairwise.of_cons h
      have hle := std_unique_length_le (b :: t)
      simp only [std_unique]
      by_cases hab : a = b
      · rw [if_pos hab]
        subst hab
        constructor
        · intro heq
          simp only [List.length_cons] at heq hle
          omega
        · intro hnd
          exact absurd (List.mem_cons_self a t) (List.nodup_cons.mp hnd).1
      · rw [if_neg hab]
        have hnot : a ∉ b :: t := by
          intro hmem
          rcases List.mem_cons.mp hmem with hm | hm
          · exact hab hm
          · have h1 : pair_le a b = true := List.rel_of_pairwise_cons h (List.mem_cons_self b t)
            have h2 : pair_le b a = true := List.rel_of_pairwise_cons htail hm
            exact hab (pair_le_antisymm a b h1 h2)
        rw [List.nodup_cons, ← ih htail]
        simp only [List.length_cons] at *
        constructor
        · intro heq
          exact ⟨hnot, by omega⟩
        · intro hnd
          omega

theorem sorted_unique_iff (l : List (Nat × Nat)) :
    (std_unique (l.mergeSort pair_le)).length ≠ (l.mergeSort pair_le).length ↔ ¬ l.Nodup := by
  have hs : (l.mergeSort pair_le).Pairwise (fun a b => pair_le a b) :=
    List.sorted_mergeSort pair_le_trans pair_le_total l
  rw [Ne, std_unique_length_eq_iff _ hs, (List.mergeSort_perm l pair_le).nodup_iff]

theorem Item.lt_eq_lt_with (a o : Item) (s : Rec) :
    Item.lt a o s = Item.lt_with Item.check_dups a o s := rfl

theorem Item.check_no_dups_eq_with (s : Rec) :
    Item.check_no_dups s = Item.check_no_dups_with Item.check_dups s := rfl

theorem Item.lt_with_pairs (cd : Bool) (a o : Item) (s : Rec) :
    (Item.lt_with cd a o s).2.compare_pairs =
      if cd && s.record_compares then
        s.compare_pairs ++ [(min a.key o.key, max a.key o.key)]
      else s.compare_pairs := by
  unfold Item.lt_with
  by_cases h : s.count_compares <;> by_cases h2 : (cd && s.record_compares) = true <;>
    simp [h, h2]

theorem operator_lt_pairs_counterexample :
    (Rec.recording 4 []).record_compares = true ∧
      (Item.lt (Item.mk 2) (Item.mk 1)
          (Rec.recording 4 [])).2.compare_pairs ≠
        (Rec.recording 4 []).compare_pairs ++
          [(min 2 1, max 2 1)] := by
  decide

/-- C15 (amended): an order comparison between `a` and `b` appends the pair
`(min(a.key, b.key), max(a.key, b.key))` to `compare_pairs` exactly when both
the compile-time constant `check_dups` and the switch `record_compares` are
true, and leaves `compare_pairs` unchanged otherwise; `check_dups` is `false`
in the source, so there every comparison leaves `compare_pairs` unchanged,
whatever `record_compares` is. -/
theorem operator_lt_pairs (cd : Bool) (a o : Item) (s : Rec) :
    (Item.lt_with cd a o s).2.compare_pairs =
        (if cd && s.record_compares then
          s.compare_pairs ++ [(min a.key o.key, max a.key o.key)]
        else s.compare_pairs) ∧
      Item.lt a o s = Item.lt_with Item.check_dups a o s ∧ Item.check_dups = false ∧
      (Item.lt a o s).2.compare_pairs = s.compare_pairs :=
  ⟨Item.lt_with_pairs cd a o s, rfl, rfl, Item.lt_compare_pairs a o s⟩

theorem check_no_dups_counterexample :
    (Rec.recording 4 [(1, 2), (1, 2)]).record_compares = true ∧
      ¬ (Rec.recording 4 [(1, 2), (1, 2)]).compare_pairs.Nodup ∧
      Item.check_no_dups
          (Rec.recording 4 [(1, 2), (1, 2)]) =
        .ok (Rec.recording 4 [(1, 2), (1, 2)]) ∧
      Item.check_no_dups (Rec.recording 4 [(1, 2)]) =
        .ok (Rec.recording 4 [(1, 2)]) :=
  ⟨rfl, by decide, rfl, rfl⟩

theorem Item.check_no_dups_with_on (s : Rec) (hr : s.record_compares = true) :
    (Item.check_no_dups_with true s = .error Fault.terminated ↔ ¬ s.compare_pairs.Nodup) ∧
      (s.compare_pairs.Nodup → Item.check_no_dups_with true s = .ok { s with compare_pairs := [] }) := by
  have hiff := sorted_unique_iff s.compare_pairs
  by_cases hnd : s.compare_pairs.Nodup
  · have hne : ¬ (std_unique (s.compare_pairs.mergeSort pair_le)).length ≠
        (s.compare_pairs.mergeSort pair_le).length := fun h => (hiff.mp h) hnd
    have hval : Item.check_no_dups_with true s = .ok { s with compare_pairs := [] } := by
      simp only [Item.check_no_dups_with, hr, Bool.not_true, Bool.or_self, Bool.false_eq_true,
        if_false, if_neg hne]
    refine ⟨?_, fun _ => hval⟩
    rw [hval]
    constructor
    · intro h; exact absurd h (by simp)
    · intro h; exact absurd hnd h
  · have hne : (std_unique (s.compare_pairs.mergeSort pair_le)).length ≠
        (s.compare_pairs.mergeSort pair_le).length := hiff.mpr hnd
    have hval : Item.check_no_dups_with true s = .error Fault.terminated := by
      simp only [Item.check_no_dups_with, hr, Bool.not_true, Bool.or_self, Bool.false_eq_true,
        if_false, if_pos hne]
    exact ⟨⟨fun _ => hnd, fun _ => hval⟩, fun h => absurd h hnd⟩

/-- C16 (amended): when both the compile-time constant `check_dups` and the
switch `record_compares` are true, `check_no_dups` fails fatally if and only
if some pair occurs more than once in `compare_pairs`, and otherwise returns
normally leaving `compare_pairs` empty; when either is false it is a no-op
that changes no state.  `check_dups` is `false` in the source, so there
`check_no_dups` is always a no-op. -/
theorem check_no_dups_gate (cd : Bool) (s : Rec) :
    (cd = true → s.record_compares = true →
        (Item.check_no_dups_with cd s = .error Fault.terminated ↔ ¬ s.compare_pairs.Nodup) ∧
        (s.compare_pairs.Nodup →
          Item.check_no_dups_with cd s = .ok { s with compare_pairs := [] })) ∧
      ((cd = false ∨ s.record_compares = false) → Item.check_no_dups_with cd s = .ok s) ∧
      Item.check_no_dups s = Item.check_no_dups_with Item.check_dups s ∧
      Item.check_dups = false ∧ Item.check_no_dups s = .ok s := by
  refine ⟨?_, ?_, rfl, rfl, Item.check_no_dups_eq s⟩
  · intro hcd hr
    subst hcd
    exact Item.check_no_dups_with_on s hr
  · intro h
    rcases h with h | h <;> simp [Item.check_no_dups_with, h]

theorem check_no_dups_gate_witness :
    (Item.check_no_dups_with true
          (Rec.recording 4 [(1, 2), (0, 3), (1, 2)]) =
        .error Fault.terminated ↔
      ¬ (Rec.recording 4 [(1, 2), (0, 3), (1, 2)]).compare_pairs.Nodup) ∧
      ((false = false ∨ (Rec.fresh 4).record_compares = false) →
        Item.check_no_dups_with false (Rec.fresh 4) = .ok (Rec.fresh 4)) :=
  ⟨((check_no_dups_gate true
      (Rec.recording 4 [(1, 2), (0, 3), (1, 2)])).1
      rfl rfl).1,
    (check_no_dups_gate false (Rec.fresh 4)).2.1⟩

/-! ## One iteration of the loop of merge -/

/-- One iteration of the loop of `merge` is step 1 followed by the rest of the
body; the loop goes on with the cursors, the buffer and the recorder they
leave. -/
theorem merge.loop_iteration (f : Search) (fuel : Nat) (x : Item) (xt ys : List Item)
    (first : Bool) (result : List Item) (s : Rec) :
    merge.loop f (fuel + 1) (x :: xt) ys first result s =
      merge.loop f fuel
        (merge.step2 f x xt (merge.step1 f x ys first result s).1
          (merge.step1 f x ys first result s).2.1 (merge.step1 f x ys first result s).2.2).1
        (merge.step1 f x ys first result s).1 false
        (merge.step2 f x xt (merge.step1 f x ys first result s).1
          (merge.step1 f x ys first result s).2.1 (merge.step1 f x ys first result s).2.2).2.1
        (merge.step2 f x xt (merge.step1 f x ys first result s).1
          (merge.step1 f x ys first result s).2.1 (merge.step1 f x ys first result s).2.2).2.2 := by
  cases ys with
  | nil => simp [merge.loop, merge.loop_nil, merge.step1, merge.step2]
  | cons y0 yt0 =>
    simp only [merge.loop, merge.step1]
    split
    · rename_i y yt result1 s1 heq
      simp only [Prod.mk.injEq] at heq
      obtain ⟨h1, h2, h3⟩ := heq
      cases xt with
      | nil => simp [merge.step2, merge.loop_nil, h1, h2, h3]
      | cons x2 xt2 => simp [merge.step2, h1, h2, h3]
    · rename_i result1 s1 heq
      simp only [Prod.mk.injEq] at heq
      obtain ⟨h1, h2, h3⟩ := heq
      simp [merge.step2, merge.loop_nil, h1, h2, h3]

theorem merge_iteration_counterexample :
    (merge.step1 LinSearch (Item.mk 1) (items [3, 7]) true [] (Rec.fresh 8)).1 = items [3, 7] ∧
      (merge.step1 LinSearch (Item.mk 1) (items [3, 7]) true [] (Rec.fresh 8)).2.1 = [] ∧
      (merge.step2 LinSearch (Item.mk 1) (items [5])
          (merge.step1 LinSearch (Item.mk 1) (items [3, 7]) true [] (Rec.fresh 8)).1
          (merge.step1 LinSearch (Item.mk 1) (items [3, 7]) true [] (Rec.fresh 8)).2.1
          (merge.step1 LinSearch (Item.mk 1) (items [3, 7]) true [] (Rec.fresh 8)).2.2).2.1 =
        items [1] ∧
      (merge.step2 LinSearch (Item.mk 1) (items [5])
          (merge.step1 LinSearch (Item.mk 1) (items [3, 7]) true [] (Rec.fresh 8)).1
          (merge.step1 LinSearch (Item.mk 1) (items [3, 7]) true [] (Rec.fresh 8)).2.1
          (merge.step1 LinSearch (Item.mk 1) (items [3, 7]) true [] (Rec.fresh 8)).2.2).2.1 ≠
        (merge.step1 LinSearch (Item.mk 1) (items [3, 7]) true [] (Rec.fresh 8)).2.1 ++
          Item.mk 3 :: (items [1, 5]).takeWhile (fun e => decide (e.key < 3)) := by
  decide

/-- C17 (amended): in every iteration of the loop of `merge` in which, after
step 1, the right cursor has not reached the end (it is on `y`) and more than
one left element remains (`x` and a non-decreasing rest `xt`), `merge`, with
either strategy, does not append `y`: it appends the element `x` at the left
cursor and then the elements of `xt` that precede the first element of `xt`
not smaller than `y`, advances the left cursor to that element, and leaves the
right cursor on `y`. -/
theorem merge_iteration (f : Search) (hf : f = LinSearch ∨ f = ExpSearch) (fuel : Nat) (x : Item)
    (xt ys : List Item) (first : Bool) (result : List Item) (s : Rec) (y : Item)
    (yt : List Item) (hxt : xt ≠ []) (hsorted : NonDecreasing xt)
    (h1 : (merge.step1 f x ys first result s).1 = y :: yt) :
    merge.step2 f x xt (merge.step1 f x ys first result s).1
        (merge.step1 f x ys first result s).2.1 (merge.step1 f x ys first result s).2.2 =
      (xt.drop (f xt y (merge.step1 f x ys first result s).2.2).1,
        (merge.step1 f x ys first result s).2.1 ++
          x :: xt.take (f xt y (merge.step1 f x ys first result s).2.2).1,
        (f xt y (merge.step1 f x ys first result s).2.2).2) ∧
      IsLowerBound xt y (f xt y (merge.step1 f x ys first result s).2.2).1 ∧
      merge.loop f (fuel + 1) (x :: xt) ys first result s =
        merge.loop f fuel (xt.drop (f xt y (merge.step1 f x ys first result s).2.2).1)
          (y :: yt) false
          ((merge.step1 f x ys first result s).2.1 ++
            x :: xt.take (f xt y (merge.step1 f x ys first result s).2.2).1)
          (f xt y (merge.step1 f x ys first result s).2.2).2 := by
  have hs : Search.Sound f := by
    rcases hf with rfl | rfl
    · exact LinSearch_sound
    · exact ExpSearch_sound
  have h2 : merge.step2 f x xt (merge.step1 f x ys first result s).1
        (merge.step1 f x ys first result s).2.1 (merge.step1 f x ys first result s).2.2 =
      (xt.drop (f xt y (merge.step1 f x ys first result s).2.2).1,
        (merge.step1 f x ys first result s).2.1 ++
          x :: xt.take (f xt y (merge.step1 f x ys first result s).2.2).1,
        (f xt y (merge.step1 f x ys first result s).2.2).2) := by
    rw [h1]
    cases xt with
    | nil => exact absurd rfl hxt
    | cons x2 xt2 => simp [merge.step2]
  refine ⟨h2, hs.lower _ _ _ hsorted, ?_⟩
  rw [merge.loop_iteration, h2, h1]

theorem merge_iteration_witness :
    (LinSearch = LinSearch ∨ LinSearch = ExpSearch) ∧ items [5] ≠ [] ∧
      NonDecreasing (items [5]) ∧
      (merge.step1 LinSearch (Item.mk 1) (items [3, 7]) true [] (Rec.fresh 8)).1 =
        Item.mk 3 :: items [7] ∧
      IsLowerBound (items [5]) (Item.mk 3)
        (LinSearch (items [5]) (Item.mk 3)
          (merge.step1 LinSearch (Item.mk 1) (items [3, 7]) true [] (Rec.fresh 8)).2.2).1 :=
  ⟨Or.inl rfl, by decide, by decide, by decide,
    (merge_iteration LinSearch (Or.inl rfl) 0 (Item.mk 1) (items [5]) (items [3, 7]) true []
      (Rec.fresh 8) (Item.mk 3) (items [7]) (by decide) (by decide) (by decide)).2.1⟩

/-! ## ExpSearch stays inside its range -/

theorem getElem?_eq_some_getD (r : List Item) (i : Nat) (h : i < r.length) :
    r[i]? = some (r.getD i default) := by
  rw [List.getD_eq_getElem _ _ h, List.getElem?_eq_getElem h]

theorem lower_bound.bisect_checked_eq (r : List Item) (x : Item) (fuel first len : Nat) (s : Rec)
    (h : first + len ≤ r.length) :
    lower_bound.loop_checked r x fuel first len s =
      some (lower_bound.loop r x fuel first len s) := by
  induction fuel generalizing first len s with
  | zero => rfl
  | succ fuel ih =>
    rw [lower_bound.bisect_succ]
    simp only [lower_bound.loop_checked]
    by_cases hpos : 0 < len
    · rw [if_pos hpos, if_pos hpos, getElem?_eq_some_getD r (first + len / 2) (by omega)]
      simp only [Item.lt_fst, decide_eq_true_eq]
      split
      · exact ih _ _ _ (by omega)
      · exact ih _ _ _ (by omega)
    · rw [if_neg hpos, if_neg hpos]

theorem ExpSearch.gallop_checked_eq (r : List Item) (x : Item) (fuel i last_i step : Nat)
    (s : Rec) :
    ExpSearch.loop_checked r x fuel i last_i step s =
      some (ExpSearch.loop r x fuel i last_i step s) := by
  induction fuel generalizing i last_i step s with
  | zero => rfl
  | succ fuel ih =>
    rw [ExpSearch.gallop_succ]
    simp only [ExpSearch.loop_checked]
    by_cases hi : i < r.length
    · rw [if_pos hi, if_pos hi, getElem?_eq_some_getD r i hi]
      simp only [Item.lt_fst, decide_eq_true_eq]
      split
      · exact ih _ _ _ _
      · rfl
    · rw [if_neg hi, if_neg hi]

theorem ExpSearch_checked_eq (r : List Item) (x : Item) (s : Rec) :
    ExpSearch_checked r x s = some (ExpSearch r x s) := by
  obtain ⟨j, _, h1, h2, h3, _, _, _, _, _⟩ :=
    ExpSearch.loop_doubling r x r.length 0 0 s (by omega) (ExpSearch.loop r x r.length 0 0 1 s) rfl
  rw [ExpSearch_eq r x s _ rfl]
  simp only [ExpSearch_checked, ExpSearch.gallop_checked_eq]
  generalize ExpSearch.loop r x r.length 0 0 1 s = w at h1 h2 h3
  simp only [Nat.zero_add, Nat.mul_one] at h1 h3
  by_cases ha : w.1.2 = w.1.1
  · rw [if_pos ha, if_pos ha]
  · rw [if_neg ha, if_neg ha]
    have hj : 0 < j := by
      rcases Nat.eq_zero_or_pos j with hj | hj
      · subst hj
        have := h2 rfl
        simp at h1
        omega
      · exact hj
    obtain ⟨m, rfl⟩ : ∃ m, j = m + 1 := ⟨j - 1, by omega⟩
    obtain ⟨e1, e2, _⟩ := h3 hj
    simp only [Nat.add_sub_cancel] at e1
    have hpw : 2 ^ (m + 1) = 2 * 2 ^ m := by ring
    have hpos : 1 ≤ 2 ^ m := Nat.one_le_two_pow
    by_cases hover : r.length ≤ w.1.1
    · rw [if_pos hover, if_pos hover, if_neg (by omega)]
      by_cases hlast : w.1.2 = r.length - 1
      · rw [if_pos hlast, if_pos hlast]
      · rw [if_neg hlast, if_neg hlast, getElem?_eq_some_getD r (r.length - 1) (by omega)]
        simp only [Item.lt_fst, decide_eq_true_eq]
        split
        · rfl
        · simp only [lower_bound_checked]
          rw [if_pos ⟨by omega, by omega⟩]
          exact lower_bound.bisect_checked_eq r x _ _ _ _ (by omega)
    · rw [if_neg hover, if_neg hover]
      simp only [lower_bound_checked]
      rw [if_pos ⟨by omega, by omega⟩]
      exact lower_bound.bisect_checked_eq r x _ _ _ _ (by omega)

/-- C18: for every range, sorted or not, the empty one included, and every
probe, `ExpSearch` with all its accesses checked never fails: it reads only
elements at indices below the length of the range, does not evaluate
`size - 1` for `size = 0`, hands `std::lower_bound` only sub-ranges with
`first ≤ last` that lie inside the range, does what the unchecked `ExpSearch`
does, and returns a position between 0 and the length of the range. -/
theorem ExpSearch_in_range (r : List Item) (x : Item) (s : Rec) :
    ExpSearch_checked r x s = some (ExpSearch r x s) ∧
      0 ≤ (ExpSearch r x s).1 ∧ (ExpSearch r x s).1 ≤ r.length := by
  obtain ⟨_, hle, _⟩ := ExpSearch_run r x s
  exact ⟨ExpSearch_checked_eq r x s, Nat.zero_le _, hle⟩

end MergeCompares
